import Mathlib

/-! Streaming AEAD framing of `internal/crypto/stream.go`, with `CountingWriter` of
`internal/utils/writer.go` and `ensurePipExtension` of `cmd/utils.go`.

A shallow embedding of `EncryptStream` and `DecryptStream`, of `CountingWriter.Write` and of
`ensurePipExtension`.

* Byte slices are `List UInt8`.
* The plaintext source of `EncryptStream` is the finite script of the results its
  `Read` calls return, in order; once the script is used up a `Read` returns
  `(0, io.EOF)`.  Every run of `EncryptStream` that returns makes finitely many
  `Read` calls, so every such run is the run on some script.
* The ciphertext source of `DecryptStream` is a byte sequence followed by end of
  input; it is only read through `io.ReadFull` (directly, and inside
  `binary.Read`), whose result does not depend on how the bytes are split
  into reads.
* A sink is the bytes it has accepted plus a script of the outcomes of its next
  `Write` calls, so that failing writes can be expressed.
* Key derivation, `aes.NewCipher`, `cipher.NewGCM`, `Seal` and `Open` are
  parameters (`Env`); the random file salt is an argument.
* `uint32` and `uint64` values are naturals reduced modulo `2^32` and `2^64`.
* `sealed` and `opened` are logs of the calls made to `Seal` and `Open`.
* The writer wrapped by a `CountingWriter` is a state with a `Write` function that reports
  `(n, err)`; the callback is the log of the arguments it was called with.
* Strings are their bytes; `strings.ToLower` is a parameter of `ensurePipExtension`.
-/

namespace Chin

abbrev Bytes := List UInt8

/-- Error values that the two functions can return. `other` stands for any error value
of a collaborator (reader, sink, key derivation, cipher setup). -/
inductive Error where
  | EOF
  | ErrUnexpectedEOF
  | chunkTooLarge
  | decryptionFailed
  | other (code : Nat)
  deriving DecidableEq, Repr

/-- `ChunkSize = 64 * 1024`. -/
def ChunkSize : Nat := 64 * 1024

/-- Modelled from the spec: the constant `SaltSize`, declared outside the files at hand;
salts are 16 bytes. -/
def SaltSize : Nat := 16

/-- Modelled from the spec: the constant `NonceSize`, declared outside the files at hand;
nonces are 12 bytes. -/
def NonceSize : Nat := 12

/-- `const MaxChunkSize = ChunkSize + 256` of `DecryptStream`. -/
def MaxChunkSize : Nat := ChunkSize + 256

/-- Conversion `uint32(x)`. -/
def uint32 (x : Nat) : Nat := x % 2 ^ 32

/-- Conversion `uint64(x)`, also the wrap-around of `uint64` arithmetic. -/
def uint64 (x : Nat) : Nat := x % 2 ^ 64

/-- `binary.BigEndian.PutUint32`: the four bytes of `v`, most significant first. -/
def PutUint32 (v : Nat) : Bytes :=
  [UInt8.ofNat (v >>> 24), UInt8.ofNat (v >>> 16), UInt8.ofNat (v >>> 8), UInt8.ofNat v]

/-- `binary.BigEndian.PutUint64`: the eight bytes of `v`, most significant first. -/
def PutUint64 (v : Nat) : Bytes :=
  [UInt8.ofNat (v >>> 56), UInt8.ofNat (v >>> 48), UInt8.ofNat (v >>> 40),
   UInt8.ofNat (v >>> 32), UInt8.ofNat (v >>> 24), UInt8.ofNat (v >>> 16),
   UInt8.ofNat (v >>> 8), UInt8.ofNat v]

/-- `binary.BigEndian.Uint32` on a four-byte slice (other lengths do not occur). -/
def Uint32 (b : Bytes) : Nat :=
  match b with
  | [b0, b1, b2, b3] => b0.toNat <<< 24 ||| b1.toNat <<< 16 ||| b2.toNat <<< 8 ||| b3.toNat
  | _ => 0

/-- The statement `binary.BigEndian.PutUint64(nonce[4:], chunkIndex)`: bytes 4..11 of the nonce
buffer are overwritten, the others are kept. -/
def putNonce (nonce : Bytes) (chunkIndex : Nat) : Bytes :=
  nonce.take 4 ++ PutUint64 chunkIndex ++ nonce.drop 12

/-- The nonce of the specification: four zero bytes, then the chunk index in eight bytes,
big endian. -/
def Nonce (chunkIndex : Nat) : Bytes :=
  List.replicate 4 0 ++ PutUint64 chunkIndex

/-- The collaborators of the two functions. -/
structure Env where
  /-- `DeriveKey(password, masterSalt)` -/
  DeriveKey : Bytes → Bytes → Bytes
  /-- `DeriveStreamKey(masterKey, fileSalt)` -/
  DeriveStreamKey : Bytes → Bytes → Except Error Bytes
  /-- `aes.NewCipher(fileKey)` -/
  NewCipher : Bytes → Except Error Bytes
  /-- `cipher.NewGCM(block)` -/
  NewGCM : Bytes → Except Error Bytes
  /-- `gcm.Seal(nil, nonce, plaintext, nil)` -/
  Seal : Bytes → Bytes → Bytes → Bytes
  /-- `gcm.Open(nil, nonce, ciphertext, nil)`; `none` is a rejection. -/
  Open : Bytes → Bytes → Bytes → Option Bytes

/-- What one `Read(buf)` call hands back: the bytes put into `buf` and the error. -/
structure ReadResult where
  data : Bytes
  err : Option Error
  deriving DecidableEq, Repr

/-- A sink: the bytes accepted so far and the outcomes of the coming `Write` calls
(`none`: the call takes all bytes; `some (n, e)`: it takes at most `n` bytes and fails with
`e`). Calls beyond the script succeed. -/
structure Writer where
  data : Bytes
  faults : List (Option (Nat × Error))
  deriving DecidableEq, Repr

/-- One `w.Write(p)` call. -/
def Writer.Write (w : Writer) (p : Bytes) : Writer × Option Error :=
  match w.faults with
  | [] => ({ data := w.data ++ p, faults := [] }, none)
  | none :: fs => ({ data := w.data ++ p, faults := fs }, none)
  | some (n, e) :: fs => ({ data := w.data ++ p.take n, faults := fs }, some e)

/-- One logged call of `Seal` or `Open`: the nonce and the bytes passed. -/
structure Call where
  nonce : Bytes
  input : Bytes
  deriving DecidableEq, Repr

/-- Outcome of `EncryptStream`: the returned error (`none` is `nil`), the sink, the calls made
to `Seal`. -/
structure EncResult where
  err : Option Error
  w : Writer
  sealed : List Call
  deriving DecidableEq, Repr

/-- The variables of the loop of `EncryptStream`, with the log of `Seal` calls. -/
structure EncState where
  w : Writer
  chunkIndex : Nat
  nonce : Bytes
  sealed : List Call
  deriving DecidableEq, Repr

/-- The block `if n > 0 { ... }` of the loop, for the `n` bytes `window` just read: the error
it returns with, if any, and the variables after it. -/
def encChunk (env : Env) (gcm : Bytes) (s : EncState) (window : Bytes) :
    Option Error × EncState :=
  let nonce1 := putNonce s.nonce s.chunkIndex
  let ciphertext := env.Seal gcm nonce1 window
  let log1 := s.sealed ++ [{ nonce := nonce1, input := window }]
  match s.w.Write (PutUint32 (uint32 ciphertext.length)) with
  | (w1, some e) =>
    (some e, { w := w1, chunkIndex := s.chunkIndex, nonce := nonce1, sealed := log1 })
  | (w1, none) =>
    match w1.Write ciphertext with
    | (w2, some e) =>
      (some e, { w := w2, chunkIndex := s.chunkIndex, nonce := nonce1, sealed := log1 })
    | (w2, none) =>
      (none, { w := w2, chunkIndex := uint64 (s.chunkIndex + 1), nonce := nonce1, sealed := log1 })

/-- The code after the loop: write the terminator, return. -/
def encFinish (s : EncState) : EncResult :=
  match s.w.Write (PutUint32 (uint32 0)) with
  | (w1, e1) => { err := e1, w := w1, sealed := s.sealed }

/-- The two tests on the error of `Read` that end an iteration: `io.EOF` leaves the loop, any
other error is returned, `nil` goes on with the remaining reads `rest`. -/
def encAfter (next : EncState → EncResult) (s : EncState) (err : Option Error) : EncResult :=
  match err with
  | some Error.EOF => encFinish s
  | some e => { err := some e, w := s.w, sealed := s.sealed }
  | none => next s

/-- The `for` loop of `EncryptStream`, one clause per result of `r.Read(buf)`. A script that is
used up yields `(0, io.EOF)`. -/
def encLoop (env : Env) (gcm : Bytes) : List ReadResult → EncState → EncResult
  | [], s => encFinish s
  | r :: rs, s =>
    if 0 < r.data.length then
      match encChunk env gcm s r.data with
      | (some e, s1) => { err := some e, w := s1.w, sealed := s1.sealed }
      | (none, s1) => encAfter (encLoop env gcm rs) s1 r.err
    else
      encAfter (encLoop env gcm rs) s r.err

/-- The key and cipher setup that both functions perform on the master key and the file salt:
`DeriveStreamKey`, `aes.NewCipher`, `cipher.NewGCM`, each returning its error. -/
def setupGCM (env : Env) (masterKey fileSalt : Bytes) : Except Error Bytes :=
  match env.DeriveStreamKey masterKey fileSalt with
  | .error e => .error e
  | .ok fileKey =>
    match env.NewCipher fileKey with
    | .error e => .error e
    | .ok block => env.NewGCM block

/-- `EncryptStream(r, w, password, masterSalt)`; `salt` is the result of `GenerateSalt()`. -/
def EncryptStream (env : Env) (r : List ReadResult) (w : Writer) (password masterSalt : Bytes)
    (salt : Except Error Bytes) : EncResult :=
  let masterKey := env.DeriveKey password masterSalt
  match salt with
  | .error e => { err := some e, w := w, sealed := [] }
  | .ok fileSalt =>
    match w.Write fileSalt with
    | (w1, some e) => { err := some e, w := w1, sealed := [] }
    | (w1, none) =>
      match setupGCM env masterKey fileSalt with
      | .error e => { err := some e, w := w1, sealed := [] }
      | .ok gcm =>
        encLoop env gcm r
          { w := w1, chunkIndex := 0, nonce := List.replicate NonceSize 0, sealed := [] }

/-- `io.ReadFull(r, buf)` with `len(buf) = n` on a source holding the bytes `r`: the bytes read
or the error, and what is left of the source. A short source is used up. -/
def ReadFull (r : Bytes) (n : Nat) : Except Error Bytes × Bytes :=
  if n ≤ r.length then (.ok (r.take n), r.drop n)
  else if r.length = 0 then (.error Error.EOF, [])
  else (.error Error.ErrUnexpectedEOF, [])

/-- Outcome of `DecryptStream`: the returned error (`none` is `nil`), the sink, the bytes of the
source that were not read, the calls made to `Open`. -/
structure DecResult where
  err : Option Error
  w : Writer
  rest : Bytes
  opened : List Call
  deriving DecidableEq, Repr

/-- The variables of the loop of `DecryptStream`, with the log of `Open` calls. -/
structure DecState where
  w : Writer
  chunkIndex : Nat
  nonce : Bytes
  opened : List Call
  deriving DecidableEq, Repr

/-- The `for` loop of `DecryptStream` on the source bytes `r`. The first argument bounds the
number of iterations; `none` means the bound was reached. -/
def decLoop (env : Env) (gcm : Bytes) : Nat → Bytes → DecState → Option DecResult
  | 0, _, _ => none
  | fuel + 1, r, s =>
    match ReadFull r 4 with
    | (.error Error.EOF, r1) =>
      some { err := none, w := s.w, rest := r1, opened := s.opened }
    | (.error e, r1) =>
      some { err := some e, w := s.w, rest := r1, opened := s.opened }
    | (.ok bs, r1) =>
      let length := Uint32 bs
      if length = 0 then
        some { err := none, w := s.w, rest := r1, opened := s.opened }
      else if MaxChunkSize < length then
        some { err := some Error.chunkTooLarge, w := s.w, rest := r1, opened := s.opened }
      else
        match ReadFull r1 length with
        | (.error e, r2) =>
          some { err := some e, w := s.w, rest := r2, opened := s.opened }
        | (.ok ciphertext, r2) =>
          let nonce1 := putNonce s.nonce s.chunkIndex
          let log1 := s.opened ++ [{ nonce := nonce1, input := ciphertext }]
          match env.Open gcm nonce1 ciphertext with
          | none =>
            some { err := some Error.decryptionFailed, w := s.w, rest := r2, opened := log1 }
          | some plaintext =>
            match s.w.Write plaintext with
            | (w1, some e) => some { err := some e, w := w1, rest := r2, opened := log1 }
            | (w1, none) =>
              decLoop env gcm fuel r2
                { w := w1, chunkIndex := uint64 (s.chunkIndex + 1), nonce := nonce1,
                  opened := log1 }

/-- `DecryptStream(r, w, password, masterSalt)` on the source bytes `r`. Every iteration of
the loop that is followed by another one reads at least five bytes, so `r.length + 1`
iterations are never used up (`DecryptStream_returns`). -/
def DecryptStream (env : Env) (r : Bytes) (w : Writer) (password masterSalt : Bytes) :
    Option DecResult :=
  let masterKey := env.DeriveKey password masterSalt
  match ReadFull r SaltSize with
  | (.error e, r1) => some { err := some e, w := w, rest := r1, opened := [] }
  | (.ok fileSalt, r1) =>
    match setupGCM env masterKey fileSalt with
    | .error e => some { err := some e, w := w, rest := r1, opened := [] }
    | .ok gcm =>
      decLoop env gcm (r1.length + 1) r1
        { w := w, chunkIndex := 0, nonce := List.replicate NonceSize 0, opened := [] }

/-- A small cipher for evaluating the definitions: keys are concatenations, `Seal` appends a
16-byte tag made of the last nonce byte plus one, `Open` checks and strips it. -/
def toyEnv : Env where
  DeriveKey := fun password masterSalt => password ++ masterSalt
  DeriveStreamKey := fun masterKey fileSalt => .ok (masterKey ++ fileSalt)
  NewCipher := fun key => .ok key
  NewGCM := fun block => .ok block
  Seal := fun _ nonce p => p ++ List.replicate 16 (nonce.getLastD 0 + 1)
  Open := fun _ nonce c =>
    if 16 ≤ c.length ∧ c.drop (c.length - 16) = List.replicate 16 (nonce.getLastD 0 + 1) then
      some (c.take (c.length - 16))
    else none

/-- A sink that accepts everything, empty at the start. -/
def emptySink : Writer := { data := [], faults := [] }

/-- One data chunk on the wire: the length of the sealed bytes in four bytes, big endian, then
the sealed bytes. -/
def frame (c : Bytes) : Bytes := PutUint32 c.length ++ c

/-- A sequence of data chunks on the wire. -/
def frames : List Bytes → Bytes
  | [] => []
  | c :: cs => frame c ++ frames cs

/-- The terminator: the length 0 in four bytes. -/
def terminator : Bytes := [0, 0, 0, 0]

/-- The plaintexts `Open` returns for the chunks `cs`, the first at chunk position `i`, the
next at `i + 1` and so on; `none` when one of them is rejected. -/
def openFrom (env : Env) (gcm : Bytes) : Nat → List Bytes → Option (List Bytes)
  | _, [] => some []
  | i, c :: cs =>
    match env.Open gcm (Nonce i) c with
    | none => none
    | some p =>
      match openFrom env gcm (i + 1) cs with
      | none => none
      | some ps => some (p :: ps)

/-- The sealed bytes of the windows `ws`, the first at chunk position `i`. -/
def sealFrom (env : Env) (gcm : Bytes) : Nat → List Bytes → List Bytes
  | _, [] => []
  | i, p :: ps => env.Seal gcm (Nonce i) p :: sealFrom env gcm (i + 1) ps

/-- The calls of `Seal` or `Open` on the inputs `xs`, the first at chunk position `i`. -/
def callsFrom : Nat → List Bytes → List Call
  | _, [] => []
  | i, x :: xs => { nonce := Nonce i, input := x } :: callsFrom (i + 1) xs

/-- A sealed chunk that the decoder reads as a data chunk: not empty and not above
`MaxChunkSize`. -/
def ChunkOK (c : Bytes) : Prop := 0 < c.length ∧ c.length ≤ MaxChunkSize

/-- The non-empty windows that the reads of a script hand over, in order, up to and including
the first read that reports an error (`io.EOF` or another one). -/
def windows : List ReadResult → List Bytes
  | [] => []
  | r :: rs =>
    (if 0 < r.data.length then [r.data] else []) ++
      (match r.err with
       | none => windows rs
       | some _ => [])

/-- The plaintext a script hands over: the bytes of its reads, in order, up to and including
the first read that reports an error. -/
def delivered : List ReadResult → Bytes
  | [] => []
  | r :: rs =>
    r.data ++
      (match r.err with
       | none => delivered rs
       | some _ => [])

/-- No read hands over more than the `ChunkSize` bytes of the buffer it is given. -/
def ReadsFit (reads : List ReadResult) : Prop := ∀ r ∈ reads, r.data.length ≤ ChunkSize

/-- `Open` undoes `Seal` under the same key and nonce. -/
def OpenSeal (env : Env) : Prop := ∀ g n p, env.Open g n (env.Seal g n p) = some p

/-- `Seal` of GCM returns the plaintext length plus the 16 bytes of the tag. -/
def SealLength (env : Env) : Prop := ∀ g n p, (env.Seal g n p).length = p.length + 16

/-- The nonce buffer has its twelve bytes and the first four are still zero. -/
def NonceOK (nonce : Bytes) : Prop := nonce.length = 12 ∧ nonce.take 4 = [0, 0, 0, 0]

/-- A source that fills the buffer: no read reports an error other than `io.EOF`, and a read
hands over fewer than `ChunkSize` bytes only when no byte is handed over after it. This is how
`bytes.Reader` and `bytes.Buffer` answer `Read`. -/
def FillsBuffer : List ReadResult → Prop
  | [] => True
  | r :: rs =>
    (r.err = none ∨ r.err = some Error.EOF) ∧
      (r.data.length = ChunkSize ∨
        (r.data.length < ChunkSize ∧ (r.err = none → delivered rs = []))) ∧
      (r.err = none → FillsBuffer rs)

/-- The bytes `x` that remain of a source stop inside a frame: one to three bytes of a length
prefix, or a whole prefix declaring a length `L` between 1 and 65792 with fewer than `L`
bytes after it. -/
def EndsInsideFrame (x : Bytes) : Prop :=
  (1 ≤ x.length ∧ x.length ≤ 3) ∨
    ∃ L tail, x = PutUint32 L ++ tail ∧ 1 ≤ L ∧ L ≤ 65536 + 256 ∧ tail.length < L

/-- What a run does to the script `F` of a sink: it makes some number `k` of `Write` calls,
leaving `F'`; a call among them that fails is the last one, and its error is the error `err`
the run returns. -/
def Consumes (F F' : List (Option (Nat × Error))) (err : Option Error) : Prop :=
  ∃ k, F' = F.drop k ∧
    ∀ j n e, F[j]? = some (some (n, e)) → j < k → j + 1 = k ∧ err = some e

/-- The source reports end of input: its reads report no error until one reports `io.EOF`, or
the script is used up. -/
def EOFReached : List ReadResult → Prop
  | [] => True
  | r :: rs => r.err = some Error.EOF ∨ (r.err = none ∧ EOFReached rs)

/-- `CountingWriter` of `internal/utils/writer.go`. The wrapped `io.Writer` is a state of type
`σ`; `Callback` tells whether the field is non-nil; `called` is the log of the arguments the
callback has been called with. -/
structure CountingWriter (σ : Type) where
  Writer : σ
  Count : Nat
  Callback : Bool
  called : List Int

/-- Conversion `uint64(n)` of an `int`. -/
def uint64OfInt (n : Int) : Nat := (n % 2 ^ 64).toNat

/-- `(*CountingWriter).Write(p)`; `under` is `Write` of the wrapped writer, which reports the
`int` `n` and the error. -/
def CountingWriter.Write {σ : Type} (under : σ → Bytes → (Int × Option Error) × σ)
    (w : CountingWriter σ) (p : Bytes) : (Int × Option Error) × CountingWriter σ :=
  match under w.Writer p with
  | ((n, err), u) =>
    ((n, err),
      { Writer := u, Count := uint64 (w.Count + uint64OfInt n), Callback := w.Callback,
        called := if w.Callback then w.called ++ [n] else w.called })

/-- A sequence of `Write` calls on a `CountingWriter`: what the calls return, and the writer
afterwards. -/
def CountingWriter.writeAll {σ : Type} (under : σ → Bytes → (Int × Option Error) × σ) :
    CountingWriter σ → List Bytes → List (Int × Option Error) × CountingWriter σ
  | w, [] => ([], w)
  | w, p :: ps =>
    match w.Write under p with
    | (r, w1) =>
      match CountingWriter.writeAll under w1 ps with
      | (rs, w2) => (r :: rs, w2)

/-- The same sequence of `Write` calls made on the wrapped writer itself. -/
def underAll {σ : Type} (under : σ → Bytes → (Int × Option Error) × σ) :
    σ → List Bytes → List (Int × Option Error) × σ
  | u, [] => ([], u)
  | u, p :: ps =>
    match under u p with
    | (r, u1) =>
      match underAll under u1 ps with
      | (rs, u2) => (r :: rs, u2)

/-- A wrapped writer without state that takes every buffer whole. -/
def takeAll : Unit → Bytes → (Int × Option Error) × Unit :=
  fun _ p => ((p.length, none), ())

/-- A wrapped writer without state that takes half of every buffer and reports an error. -/
def takeHalf : Unit → Bytes → (Int × Option Error) × Unit :=
  fun _ p => ((p.length / 2, some (Error.other 1)), ())

/-- The four bytes of the string `".pip"`. -/
def pipExt : Bytes := [46, 112, 105, 112]

/-- `strings.HasSuffix(s, suffix)`:
`len(s) >= len(suffix) && s[len(s)-len(suffix):] == suffix`. -/
def HasSuffix (s suffix : Bytes) : Bool :=
  decide (suffix.length ≤ s.length) && (s.drop (s.length - suffix.length) == suffix)

/-- `ensurePipExtension(path)` of `cmd/utils.go`, on the bytes of the strings; `ToLower` is
`strings.ToLower`. -/
def ensurePipExtension (ToLower : Bytes → Bytes) (path : Bytes) : Bytes :=
  if HasSuffix (ToLower path) pipExt then path else path ++ pipExt

/-- `strings.ToLower` on a string of ASCII bytes: the letters `A` to `Z` are moved to `a` to
`z`, other bytes are kept. -/
def asciiLower (s : Bytes) : Bytes :=
  s.map (fun b => if 65 ≤ b ∧ b ≤ 90 then b + 32 else b)

/-- A cipher without a tag, for evaluating the definitions: `Seal` swaps the empty plaintext
with the one-byte plaintext `[1]` and keeps every other plaintext, `Open` swaps them back.
`Open` undoes `Seal`, but the sealed bytes of `[1]` are empty. -/
def bareEnv : Env where
  DeriveKey := fun password masterSalt => password ++ masterSalt
  DeriveStreamKey := fun masterKey fileSalt => .ok (masterKey ++ fileSalt)
  NewCipher := fun key => .ok key
  NewGCM := fun block => .ok block
  Seal := fun _ _ p => if p = [1] then [] else if p = [] then [1] else p
  Open := fun _ _ c => some (if c = [] then [1] else if c = [1] then [] else c)

/-! ## Byte order -/

theorem ofNat_congr {a b : Nat} (h : a % 256 = b % 256) : UInt8.ofNat a = UInt8.ofNat b := by
  apply UInt8.ext
  show a % 256 = b % 256
  exact h

theorem toNat_ofNat_byte (a : Nat) : (UInt8.ofNat a).toNat = a % 256 := rfl

theorem byte_lt (b : UInt8) : b.toNat < 256 := UInt8.toNat_lt_size b

theorem ofNat_toNat_byte (b : UInt8) : UInt8.ofNat b.toNat = b := by
  apply UInt8.ext
  rw [toNat_ofNat_byte]
  exact Nat.mod_eq_of_lt (byte_lt b)

theorem Uint32_eq (b0 b1 b2 b3 : UInt8) :
    Uint32 [b0, b1, b2, b3]
      = b0.toNat * 2 ^ 24 + b1.toNat * 2 ^ 16 + b2.toNat * 2 ^ 8 + b3.toNat := by
  have h0 := byte_lt b0
  have h1 := byte_lt b1
  have h2 := byte_lt b2
  have h3 := byte_lt b3
  have e1 := Nat.mul_add_lt_is_or (i := 24) (b := b1.toNat * 2 ^ 16) (by omega) b0.toNat
  have e2 := Nat.mul_add_lt_is_or (i := 16) (b := b2.toNat * 2 ^ 8) (by omega)
    (2 ^ 8 * b0.toNat + b1.toNat)
  have e3 := Nat.mul_add_lt_is_or (i := 8) (b := b3.toNat) (by omega)
    (2 ^ 16 * b0.toNat + 2 ^ 8 * b1.toNat + b2.toNat)
  have a1 : b0.toNat <<< 24 = 2 ^ 24 * b0.toNat := by rw [Nat.shiftLeft_eq, Nat.mul_comm]
  have a2 : b1.toNat <<< 16 = b1.toNat * 2 ^ 16 := Nat.shiftLeft_eq _ _
  have a3 : b2.toNat <<< 8 = b2.toNat * 2 ^ 8 := Nat.shiftLeft_eq _ _
  have c1 : 2 ^ 24 * b0.toNat + b1.toNat * 2 ^ 16 = 2 ^ 16 * (2 ^ 8 * b0.toNat + b1.toNat) := by
    omega
  have c2 : 2 ^ 16 * (2 ^ 8 * b0.toNat + b1.toNat) + b2.toNat * 2 ^ 8
      = 2 ^ 8 * (2 ^ 16 * b0.toNat + 2 ^ 8 * b1.toNat + b2.toNat) := by omega
  show b0.toNat <<< 24 ||| b1.toNat <<< 16 ||| b2.toNat <<< 8 ||| b3.toNat = _
  rw [a1, a2, a3, ← e1, c1, ← e2, c2, ← e3]
  omega

theorem Uint32_PutUint32 {v : Nat} (h : v < 2 ^ 32) : Uint32 (PutUint32 v) = v := by
  unfold PutUint32
  rw [Uint32_eq]
  simp only [toNat_ofNat_byte, Nat.shiftRight_eq_div_pow]
  omega

theorem PutUint32_Uint32 {bs : Bytes} (h : bs.length = 4) : PutUint32 (Uint32 bs) = bs := by
  match bs, h with
  | [b0, b1, b2, b3], _ =>
    have h0 := byte_lt b0
    have h1 := byte_lt b1
    have h2 := byte_lt b2
    have h3 := byte_lt b3
    rw [Uint32_eq]
    unfold PutUint32
    have e0 := ofNat_toNat_byte b0
    have e1 := ofNat_toNat_byte b1
    have e2 := ofNat_toNat_byte b2
    have e3 := ofNat_toNat_byte b3
    simp only [Nat.shiftRight_eq_div_pow]
    congr 1
    · rw [← e0]; apply ofNat_congr; simp only [toNat_ofNat_byte]; omega
    congr 1
    · rw [← e1]; apply ofNat_congr; simp only [toNat_ofNat_byte]; omega
    congr 1
    · rw [← e2]; apply ofNat_congr; simp only [toNat_ofNat_byte]; omega
    congr 1
    · rw [← e3]; apply ofNat_congr; simp only [toNat_ofNat_byte]; omega

theorem PutUint32_uint32 (v : Nat) : PutUint32 (uint32 v) = PutUint32 v := by
  unfold PutUint32 uint32
  simp only [Nat.shiftRight_eq_div_pow]
  congr 1
  · apply ofNat_congr; omega
  congr 1
  · apply ofNat_congr; omega
  congr 1
  · apply ofNat_congr; omega
  congr 1
  · apply ofNat_congr; omega

theorem PutUint32_length (v : Nat) : (PutUint32 v).length = 4 := rfl

theorem PutUint64_length (v : Nat) : (PutUint64 v).length = 8 := rfl

theorem PutUint64_uint64 (v : Nat) : PutUint64 (uint64 v) = PutUint64 v := by
  unfold PutUint64 uint64
  simp only [Nat.shiftRight_eq_div_pow]
  congr 1
  · apply ofNat_congr; omega
  congr 1
  · apply ofNat_congr; omega
  congr 1
  · apply ofNat_congr; omega
  congr 1
  · apply ofNat_congr; omega
  congr 1
  · apply ofNat_congr; omega
  congr 1
  · apply ofNat_congr; omega
  congr 1
  · apply ofNat_congr; omega
  congr 1
  · apply ofNat_congr; omega

theorem PutUint64_inj {a b : Nat} (h : PutUint64 a = PutUint64 b) : a % 2 ^ 64 = b % 2 ^ 64 := by
  unfold PutUint64 at h
  simp only [List.cons.injEq, and_true] at h
  obtain ⟨h0, h1, h2, h3, h4, h5, h6, h7⟩ := h
  replace h0 := congrArg UInt8.toNat h0
  replace h1 := congrArg UInt8.toNat h1
  replace h2 := congrArg UInt8.toNat h2
  replace h3 := congrArg UInt8.toNat h3
  replace h4 := congrArg UInt8.toNat h4
  replace h5 := congrArg UInt8.toNat h5
  replace h6 := congrArg UInt8.toNat h6
  replace h7 := congrArg UInt8.toNat h7
  simp only [toNat_ofNat_byte, Nat.shiftRight_eq_div_pow] at h0 h1 h2 h3 h4 h5 h6 h7
  omega

/-! ## Sources, sinks and the nonce buffer -/

theorem ReadFull_append (a b : Bytes) : ReadFull (a ++ b) a.length = (.ok a, b) := by
  unfold ReadFull
  simp

theorem ReadFull_ok {r : Bytes} {n : Nat} {bs r1 : Bytes} (h : ReadFull r n = (.ok bs, r1)) :
    r = bs ++ r1 ∧ bs.length = n := by
  unfold ReadFull at h
  split at h
  · rename_i hle
    simp only [Prod.mk.injEq, Except.ok.injEq] at h
    obtain ⟨h1, h2⟩ := h
    subst h1 h2
    exact ⟨(List.take_append_drop n r).symm, by simp [hle]⟩
  · split at h <;> simp at h

theorem ReadFull_error {r : Bytes} {n : Nat} {e : Error} {r1 : Bytes}
    (h : ReadFull r n = (.error e, r1)) :
    r.length < n ∧ r1 = [] ∧ ((r = [] ∧ e = Error.EOF) ∨ (r ≠ [] ∧ e = Error.ErrUnexpectedEOF)) := by
  unfold ReadFull at h
  split at h
  · simp at h
  · rename_i hlt
    split at h
    · rename_i h0
      simp only [Prod.mk.injEq, Except.error.injEq] at h
      exact ⟨by omega, h.2.symm, Or.inl ⟨List.length_eq_zero.mp h0, h.1.symm⟩⟩
    · rename_i h0
      simp only [Prod.mk.injEq, Except.error.injEq] at h
      exact ⟨by omega, h.2.symm, Or.inr ⟨fun hr => h0 (by rw [hr]; rfl), h.1.symm⟩⟩

theorem NonceOK_init : NonceOK (List.replicate NonceSize 0) := by
  constructor <;> rfl

theorem NonceOK_Nonce (i : Nat) : NonceOK (Nonce i) := by
  constructor <;> rfl

theorem putNonce_eq {nonce : Bytes} (h : NonceOK nonce) (i : Nat) : putNonce nonce i = Nonce i := by
  unfold putNonce Nonce
  rw [h.2, List.drop_of_length_le (by rw [h.1]), List.append_nil]
  rfl

theorem Nonce_uint64 (i : Nat) : Nonce (uint64 i) = Nonce i := by
  unfold Nonce
  rw [PutUint64_uint64]

theorem Nonce_inj {i j : Nat} (h : Nonce i = Nonce j) : i % 2 ^ 64 = j % 2 ^ 64 := by
  unfold Nonce at h
  exact PutUint64_inj (List.append_cancel_left h)

theorem Write_data {w : Writer} {p : Bytes} {w1 : Writer} (h : w.Write p = (w1, none)) :
    w1.data = w.data ++ p := by
  unfold Writer.Write at h
  split at h <;> simp only [Prod.mk.injEq, reduceCtorEq, and_false, and_true] at h <;>
    subst h <;> rfl

theorem Write_nofault (w : Writer) (p : Bytes) (h : w.faults = []) :
    w.Write p = ({ data := w.data ++ p, faults := [] }, none) := by
  unfold Writer.Write
  rw [h]

/-! ## One iteration of the decoder -/

/-- The iteration of `DecryptStream` on a source that starts with the four bytes of `L`. -/
theorem decLoop_header (env : Env) (gcm : Bytes) (fuel L : Nat) (tail : Bytes) (s : DecState)
    (hL : L < 2 ^ 32) :
    decLoop env gcm (fuel + 1) (PutUint32 L ++ tail) s =
      if L = 0 then some { err := none, w := s.w, rest := tail, opened := s.opened }
      else if MaxChunkSize < L then
        some { err := some Error.chunkTooLarge, w := s.w, rest := tail, opened := s.opened }
      else
        match ReadFull tail L with
        | (.error e, r2) => some { err := some e, w := s.w, rest := r2, opened := s.opened }
        | (.ok ciphertext, r2) =>
          match env.Open gcm (putNonce s.nonce s.chunkIndex) ciphertext with
          | none =>
            some { err := some Error.decryptionFailed, w := s.w, rest := r2,
                   opened := s.opened ++ [{ nonce := putNonce s.nonce s.chunkIndex,
                                             input := ciphertext }] }
          | some plaintext =>
            match s.w.Write plaintext with
            | (w1, some e) =>
              some { err := some e, w := w1, rest := r2,
                     opened := s.opened ++ [{ nonce := putNonce s.nonce s.chunkIndex,
                                               input := ciphertext }] }
            | (w1, none) =>
              decLoop env gcm fuel r2
                { w := w1, chunkIndex := uint64 (s.chunkIndex + 1),
                  nonce := putNonce s.nonce s.chunkIndex,
                  opened := s.opened ++ [{ nonce := putNonce s.nonce s.chunkIndex,
                                            input := ciphertext }] }  := by
  have hr : ReadFull (PutUint32 L ++ tail) 4 = (.ok (PutUint32 L), tail) :=
    ReadFull_append (PutUint32 L) tail
  rw [decLoop, hr]
  simp only [Uint32_PutUint32 hL]

theorem decLoop_nil (env : Env) (gcm : Bytes) (fuel : Nat) (s : DecState) :
    decLoop env gcm (fuel + 1) [] s
      = some { err := none, w := s.w, rest := [], opened := s.opened } := by
  rw [decLoop]
  rfl

theorem decLoop_terminator (env : Env) (gcm : Bytes) (fuel : Nat) (rest : Bytes) (s : DecState) :
    decLoop env gcm (fuel + 1) (terminator ++ rest) s
      = some { err := none, w := s.w, rest := rest, opened := s.opened } := by
  have h := decLoop_header env gcm fuel 0 rest s (by norm_num)
  simpa using h

theorem callsFrom_length (i : Nat) (xs : List Bytes) : (callsFrom i xs).length = xs.length := by
  induction xs generalizing i with
  | nil => rfl
  | cons x xs ih => simp [callsFrom, ih]

theorem uint64_succ (i : Nat) : uint64 (uint64 i + 1) = uint64 (i + 1) := by
  unfold uint64
  omega

/-- The decoder on a run of chunks that `Open` accepts, with a sink that takes every write:
one iteration per chunk, the plaintexts are appended to the sink in order. -/
theorem decLoop_frames (env : Env) (gcm : Bytes) (fuel : Nat) (rest : Bytes) :
    ∀ (cs : List Bytes) (i : Nat) (s : DecState) (ps : List Bytes),
      NonceOK s.nonce → s.chunkIndex = uint64 i → s.w.faults = [] →
      (∀ c ∈ cs, ChunkOK c) → openFrom env gcm i cs = some ps →
      ∃ nonce1, NonceOK nonce1 ∧
        decLoop env gcm (fuel + cs.length) (frames cs ++ rest) s
          = decLoop env gcm fuel rest
              { w := { data := s.w.data ++ ps.flatten, faults := [] },
                chunkIndex := uint64 (i + cs.length), nonce := nonce1,
                opened := s.opened ++ callsFrom i cs } := by
  intro cs
  induction cs with
  | nil =>
    intro i s ps hn hi hw _ hop
    simp only [openFrom, Option.some.injEq] at hop
    subst hop
    refine ⟨s.nonce, hn, ?_⟩
    obtain ⟨⟨d, f⟩, ci, n, o⟩ := s
    simp only at hi hw
    subst hi hw
    simp [frames, callsFrom]
  | cons c cs ih =>
    intro i s ps hn hi hw hcs hop
    have hc : ChunkOK c := hcs c (List.mem_cons_self _ _)
    have hL : c.length < 2 ^ 32 := by
      have := hc.2
      unfold MaxChunkSize ChunkSize at this
      omega
    have hnz : ¬ c.length = 0 := by have := hc.1; omega
    have hmax : ¬ MaxChunkSize < c.length := by have := hc.2; omega
    have hnonce : putNonce s.nonce s.chunkIndex = Nonce i := by
      rw [putNonce_eq hn, hi, Nonce_uint64]
    simp only [openFrom] at hop
    cases hopen : env.Open gcm (Nonce i) c with
    | none => rw [hopen] at hop; simp at hop
    | some p =>
      rw [hopen] at hop
      cases hrest : openFrom env gcm (i + 1) cs with
      | none => rw [hrest] at hop; simp at hop
      | some ps1 =>
        rw [hrest] at hop
        simp only [Option.some.injEq] at hop
        subst hop
        obtain ⟨nonce1, hn1, h1⟩ := ih (i + 1)
          { w := { data := s.w.data ++ p, faults := [] }, chunkIndex := uint64 (s.chunkIndex + 1),
            nonce := Nonce i, opened := s.opened ++ [{ nonce := Nonce i, input := c }] } ps1
          (NonceOK_Nonce i) (by simp only [hi, uint64_succ]) rfl
          (fun c1 h => hcs c1 (List.mem_cons_of_mem _ h)) hrest
        refine ⟨nonce1, hn1, ?_⟩
        have hfr : frames (c :: cs) ++ rest = PutUint32 c.length ++ (c ++ (frames cs ++ rest)) := by
          simp [frames, frame, List.append_assoc]
        rw [hfr, List.length_cons, ← Nat.add_assoc, decLoop_header env gcm _ _ _ s hL,
          if_neg hnz, if_neg hmax, ReadFull_append]
        simp only [hnonce, hopen, Write_nofault _ _ hw]
        rw [h1]
        simp [callsFrom, List.append_assoc, Nat.add_assoc, Nat.add_comm 1]

/-- The loop of `DecryptStream` returns: an iteration budget above the number of source bytes
is never used up. -/
theorem decLoop_returns (env : Env) (gcm : Bytes) :
    ∀ (fuel : Nat) (r : Bytes) (s : DecState), r.length < fuel →
      ∃ res, decLoop env gcm fuel r s = some res := by
  intro fuel
  induction fuel with
  | zero => intro r s h; omega
  | succ fuel ih =>
    intro r s h
    rw [decLoop]
    split
    · exact ⟨_, rfl⟩
    · exact ⟨_, rfl⟩
    · rename_i bs r1 hr
      obtain ⟨hr1, hbs⟩ := ReadFull_ok hr
      simp only []
      split
      · exact ⟨_, rfl⟩
      · split
        · exact ⟨_, rfl⟩
        · split
          · exact ⟨_, rfl⟩
          · rename_i c r2 hr2
            obtain ⟨hr3, hc⟩ := ReadFull_ok hr2
            split
            · exact ⟨_, rfl⟩
            · split
              · exact ⟨_, rfl⟩
              · apply ih
                rw [hr1, hr3] at h
                simp only [List.length_append, hbs] at h
                omega

/-- The loop of `DecryptStream` only adds calls at the end of the log. -/
theorem decLoop_opened_prefix (env : Env) (gcm : Bytes) :
    ∀ (fuel : Nat) (r : Bytes) (s : DecState) (res : DecResult),
      decLoop env gcm fuel r s = some res → s.opened <+: res.opened := by
  intro fuel
  induction fuel with
  | zero => intro r s res h; simp [decLoop] at h
  | succ fuel ih =>
    intro r s res h
    rw [decLoop] at h
    split at h
    · simp only [Option.some.injEq] at h; subst h; exact List.prefix_refl _
    · simp only [Option.some.injEq] at h; subst h; exact List.prefix_refl _
    · simp only [] at h
      split at h
      · simp only [Option.some.injEq] at h; subst h; exact List.prefix_refl _
      · split at h
        · simp only [Option.some.injEq] at h; subst h; exact List.prefix_refl _
        · split at h
          · simp only [Option.some.injEq] at h; subst h; exact List.prefix_refl _
          · split at h
            · simp only [Option.some.injEq] at h; subst h; exact List.prefix_append _ _
            · split at h
              · simp only [Option.some.injEq] at h; subst h; exact List.prefix_append _ _
              · exact (List.prefix_append _ _).trans (ih _ _ _ h)

/-- `DecryptStream` returns on every source, sink, password and master salt. -/
theorem DecryptStream_returns (env : Env) (r : Bytes) (w : Writer) (password masterSalt : Bytes) :
    ∃ res, DecryptStream env r w password masterSalt = some res := by
  unfold DecryptStream
  simp only []
  split
  · exact ⟨_, rfl⟩
  · split
    · exact ⟨_, rfl⟩
    · exact decLoop_returns env _ _ _ _ (Nat.lt_succ_self _)

/-! ## The encoder -/

theorem PutUint32_zero : PutUint32 (uint32 0) = terminator := by decide

theorem encFinish_ok {s : EncState} (h : (encFinish s).err = none) :
    (encFinish s).w.data = s.w.data ++ terminator ∧ (encFinish s).sealed = s.sealed := by
  unfold encFinish at h ⊢
  cases hw : s.w.Write (PutUint32 (uint32 0)) with
  | mk w1 e1 =>
    rw [hw] at h
    simp only at h
    subst h
    simp only [Write_data hw, PutUint32_zero, and_self]

theorem encFinish_sealed (s : EncState) : (encFinish s).sealed = s.sealed := by
  unfold encFinish
  rfl

/-- The log after the block `if n > 0`, whether or not its writes succeed. -/
theorem encChunk_sealed (env : Env) (gcm : Bytes) (s : EncState) (window : Bytes) (i : Nat)
    (hn : NonceOK s.nonce) (hi : s.chunkIndex = uint64 i) :
    (encChunk env gcm s window).2.sealed = s.sealed ++ [{ nonce := Nonce i, input := window }] := by
  have hnonce : putNonce s.nonce s.chunkIndex = Nonce i := by
    rw [putNonce_eq hn, hi, Nonce_uint64]
  unfold encChunk
  simp only [hnonce]
  split
  · rfl
  · split <;> rfl

/-- The state after a block `if n > 0` whose two writes succeed. -/
theorem encChunk_ok {env : Env} {gcm : Bytes} {s s1 : EncState} {window : Bytes} {i : Nat}
    (hn : NonceOK s.nonce) (hi : s.chunkIndex = uint64 i)
    (h : encChunk env gcm s window = (none, s1)) :
    s1.w.data = s.w.data ++ frame (env.Seal gcm (Nonce i) window) ∧
      s1.chunkIndex = uint64 (i + 1) ∧ s1.nonce = Nonce i ∧
      s1.sealed = s.sealed ++ [{ nonce := Nonce i, input := window }] := by
  have hnonce : putNonce s.nonce s.chunkIndex = Nonce i := by
    rw [putNonce_eq hn, hi, Nonce_uint64]
  unfold encChunk at h
  simp only [hnonce, PutUint32_uint32] at h
  split at h
  · simp at h
  · rename_i w1 hw1
    split at h
    · simp at h
    · rename_i w2 hw2
      simp only [Prod.mk.injEq, true_and] at h
      subst h
      simp only [Write_data hw2, Write_data hw1, frame, List.append_assoc, hi, uint64_succ,
        and_self]

/-- A run of the loop of `EncryptStream` that returns `nil` has appended to the sink the data
chunks of the windows read, then the terminator, and has sealed exactly those windows. -/
theorem encLoop_ok (env : Env) (gcm : Bytes) :
    ∀ (reads : List ReadResult) (i : Nat) (s : EncState),
      NonceOK s.nonce → s.chunkIndex = uint64 i → (encLoop env gcm reads s).err = none →
      (encLoop env gcm reads s).w.data
          = s.w.data ++ frames (sealFrom env gcm i (windows reads)) ++ terminator ∧
        (encLoop env gcm reads s).sealed = s.sealed ++ callsFrom i (windows reads) := by
  intro reads
  induction reads with
  | nil =>
    intro i s _ _ h
    simp only [encLoop] at h ⊢
    simpa [windows, sealFrom, frames, callsFrom] using encFinish_ok h
  | cons r rs ih =>
    intro i s hn hi h
    -- the end of an iteration, from a state `t` reached at chunk position `j`
    have after : ∀ (t : EncState) (j : Nat), NonceOK t.nonce → t.chunkIndex = uint64 j →
        (encAfter (encLoop env gcm rs) t r.err).err = none →
        (encAfter (encLoop env gcm rs) t r.err).w.data
            = t.w.data ++ frames (sealFrom env gcm j
                (match r.err with
                 | none => windows rs
                 | some _ => [])) ++ terminator ∧
          (encAfter (encLoop env gcm rs) t r.err).sealed
            = t.sealed ++ callsFrom j
                (match r.err with
                 | none => windows rs
                 | some _ => []) := by
      intro t j htn htj hok
      cases hre : r.err with
      | none =>
        rw [hre] at hok
        simp only [encAfter] at hok ⊢
        exact ih j t htn htj hok
      | some e =>
        rw [hre] at hok
        cases e with
        | EOF =>
          simp only [encAfter] at hok ⊢
          simpa [sealFrom, frames, callsFrom] using encFinish_ok hok
        | ErrUnexpectedEOF => simp [encAfter] at hok
        | chunkTooLarge => simp [encAfter] at hok
        | decryptionFailed => simp [encAfter] at hok
        | other c => simp [encAfter] at hok
    rw [encLoop] at h ⊢
    by_cases hlen : 0 < r.data.length
    · rw [if_pos hlen] at h ⊢
      cases hch : encChunk env gcm s r.data with
      | mk e1 s1 =>
        rw [hch] at h
        cases e1 with
        | some e => simp at h
        | none =>
          simp only at h ⊢
          obtain ⟨hd, hci, hn1, hlog⟩ := encChunk_ok hn hi hch
          obtain ⟨a1, a2⟩ := after s1 (i + 1) (by rw [hn1]; exact NonceOK_Nonce i) hci h
          rw [a1, a2, hd, hlog]
          simp [windows, hlen, sealFrom, frames, callsFrom, List.append_assoc]
    · rw [if_neg hlen] at h ⊢
      obtain ⟨a1, a2⟩ := after s i hn hi h
      rw [a1, a2]
      simp [windows, hlen]

theorem windows_flatten (reads : List ReadResult) : (windows reads).flatten = delivered reads := by
  induction reads with
  | nil => rfl
  | cons r rs ih =>
    simp only [windows, delivered, List.flatten_append]
    congr 1
    · by_cases h : 0 < r.data.length
      · simp [h]
      · have : r.data = [] := List.length_eq_zero.mp (by omega)
        simp [this]
    · cases r.err with
      | none => exact ih
      | some e => rfl

theorem mem_windows {reads : List ReadResult} {p : Bytes} (h : p ∈ windows reads) :
    0 < p.length ∧ ∃ r ∈ reads, p = r.data := by
  induction reads with
  | nil => simp [windows] at h
  | cons r rs ih =>
    simp only [windows, List.mem_append] at h
    rcases h with h | h
    · by_cases hl : 0 < r.data.length
      · simp only [hl, if_true, List.mem_singleton] at h
        subst h
        exact ⟨hl, r, List.mem_cons_self _ _, rfl⟩
      · simp [hl] at h
    · cases hre : r.err with
      | none =>
        rw [hre] at h
        obtain ⟨h1, r1, h2, h3⟩ := ih h
        exact ⟨h1, r1, List.mem_cons_of_mem _ h2, h3⟩
      | some e => rw [hre] at h; simp at h

theorem mem_sealFrom {env : Env} {gcm : Bytes} {ps : List Bytes} {i : Nat} {c : Bytes}
    (h : c ∈ sealFrom env gcm i ps) : ∃ n, ∃ p ∈ ps, c = env.Seal gcm n p := by
  induction ps generalizing i with
  | nil => simp [sealFrom] at h
  | cons p ps ih =>
    simp only [sealFrom, List.mem_cons] at h
    rcases h with h | h
    · exact ⟨_, p, List.mem_cons_self _ _, h⟩
    · obtain ⟨n, q, hq, hc⟩ := ih h
      exact ⟨n, q, List.mem_cons_of_mem _ hq, hc⟩

theorem sealFrom_length (env : Env) (gcm : Bytes) (i : Nat) (ps : List Bytes) :
    (sealFrom env gcm i ps).length = ps.length := by
  induction ps generalizing i with
  | nil => rfl
  | cons p ps ih => simp [sealFrom, ih]

/-- The sealed windows of a script have between 17 and `ChunkSize + 16` bytes. -/
theorem sealed_windows_length {env : Env} {gcm : Bytes} {reads : List ReadResult} {i : Nat}
    {c : Bytes} (hlen : SealLength env) (hfit : ReadsFit reads)
    (h : c ∈ sealFrom env gcm i (windows reads)) :
    17 ≤ c.length ∧ c.length ≤ ChunkSize + 16 := by
  obtain ⟨n, p, hp, hc⟩ := mem_sealFrom h
  obtain ⟨hpos, r, hr, hpr⟩ := mem_windows hp
  have h1 := hfit r hr
  rw [hc, hlen, hpr]
  rw [hpr] at hpos
  omega

theorem openFrom_sealFrom {env : Env} (hopen : OpenSeal env) (gcm : Bytes) (i : Nat)
    (ps : List Bytes) : openFrom env gcm i (sealFrom env gcm i ps) = some ps := by
  induction ps generalizing i with
  | nil => rfl
  | cons p ps ih => simp [sealFrom, openFrom, hopen gcm (Nonce i) p, ih]

theorem frames_length (cs : List Bytes) : cs.length ≤ (frames cs).length := by
  induction cs with
  | nil => simp
  | cons c cs ih =>
    simp only [frames, frame, List.length_append, List.length_cons, PutUint32_length]
    omega

/-- A successful `EncryptStream` wrote the file salt, the data chunks of the windows read, the
terminator, and sealed exactly those windows. -/
theorem EncryptStream_ok {env : Env} {reads : List ReadResult} {w : Writer}
    {password masterSalt fileSalt gcm : Bytes}
    (hkey : setupGCM env (env.DeriveKey password masterSalt) fileSalt = .ok gcm)
    (hok : (EncryptStream env reads w password masterSalt (.ok fileSalt)).err = none) :
    (EncryptStream env reads w password masterSalt (.ok fileSalt)).w.data
        = w.data ++ fileSalt ++ frames (sealFrom env gcm 0 (windows reads)) ++ terminator ∧
      (EncryptStream env reads w password masterSalt (.ok fileSalt)).sealed
        = callsFrom 0 (windows reads) := by
  unfold EncryptStream at hok ⊢
  simp only [hkey] at hok ⊢
  cases hw : w.Write fileSalt with
  | mk w1 e1 =>
    rw [hw] at hok
    cases e1 with
    | some e => simp at hok
    | none =>
      simp only at hok ⊢
      have h := encLoop_ok env gcm reads 0
        { w := w1, chunkIndex := 0, nonce := List.replicate NonceSize 0, sealed := [] }
        NonceOK_init rfl hok
      rw [h.1, h.2, Write_data hw]
      simp

/-- `DecryptStream` on a salt followed by chunks that `Open` accepts, with a sink that takes
every write: the loop arrives at what follows the chunks with the plaintexts in the sink. -/
theorem DecryptStream_frames {env : Env} (password masterSalt : Bytes) {fileSalt gcm : Bytes}
    {cs ps : List Bytes} (rest : Bytes) {w : Writer}
    (hsalt : fileSalt.length = SaltSize)
    (hkey : setupGCM env (env.DeriveKey password masterSalt) fileSalt = .ok gcm)
    (hw : w.faults = []) (hcs : ∀ c ∈ cs, ChunkOK c) (hop : openFrom env gcm 0 cs = some ps) :
    ∃ nonce1 fuel, NonceOK nonce1 ∧
      DecryptStream env (fileSalt ++ (frames cs ++ rest)) w password masterSalt
        = decLoop env gcm (fuel + 1) rest
            { w := { data := w.data ++ ps.flatten, faults := [] },
              chunkIndex := uint64 cs.length, nonce := nonce1, opened := callsFrom 0 cs } := by
  have hfl := frames_length cs
  obtain ⟨fuel, hfuel⟩ : ∃ fuel, (frames cs ++ rest).length + 1 = (fuel + 1) + cs.length :=
    ⟨(frames cs ++ rest).length - cs.length, by simp only [List.length_append]; omega⟩
  obtain ⟨nonce1, hn1, h1⟩ := decLoop_frames env gcm (fuel + 1) rest cs 0
    { w := w, chunkIndex := 0, nonce := List.replicate NonceSize 0, opened := [] } ps
    NonceOK_init rfl hw hcs hop
  refine ⟨nonce1, fuel, hn1, ?_⟩
  unfold DecryptStream
  have hr : ReadFull (fileSalt ++ (frames cs ++ rest)) SaltSize
      = (.ok fileSalt, frames cs ++ rest) := by
    rw [← hsalt]; exact ReadFull_append _ _
  simp only [hr, hkey, hfuel]
  rw [h1]
  simp

theorem EncryptStream_ok_key {env : Env} {reads : List ReadResult} {w : Writer}
    {password masterSalt fileSalt : Bytes}
    (hok : (EncryptStream env reads w password masterSalt (.ok fileSalt)).err = none) :
    ∃ gcm, setupGCM env (env.DeriveKey password masterSalt) fileSalt = .ok gcm := by
  unfold EncryptStream at hok
  simp only at hok
  cases hw : w.Write fileSalt with
  | mk w1 e1 =>
    rw [hw] at hok
    cases e1 with
    | some e => simp at hok
    | none =>
      cases hk : setupGCM env (env.DeriveKey password masterSalt) fileSalt with
      | error e => rw [hk] at hok; simp at hok
      | ok gcm => exact ⟨gcm, rfl⟩

theorem windows_eq_nil {reads : List ReadResult} (h : delivered reads = []) :
    windows reads = [] := by
  cases hws : windows reads with
  | nil => rfl
  | cons p ps =>
    have hp : p ∈ windows reads := by rw [hws]; exact List.mem_cons_self _ _
    have hpos := (mem_windows hp).1
    rw [← windows_flatten, hws] at h
    simp only [List.flatten_cons, List.append_eq_nil] at h
    rw [h.1] at hpos
    simp at hpos

theorem toyEnv_OpenSeal : OpenSeal toyEnv := by
  intro g n p
  simp [toyEnv]

theorem toyEnv_SealLength : SealLength toyEnv := by
  intro g n p
  simp [toyEnv]

/-! ## The logs of `Seal` and `Open` calls -/

theorem callsFrom_getElem? (i : Nat) (xs : List Bytes) (k : Nat) (c : Call)
    (h : (callsFrom i xs)[k]? = some c) : c.nonce = Nonce (i + k) ∧ xs[k]? = some c.input := by
  induction xs generalizing i k with
  | nil => simp [callsFrom] at h
  | cons x xs ih =>
    cases k with
    | zero =>
      simp only [callsFrom, List.getElem?_cons_zero, Option.some.injEq] at h
      subst h
      exact ⟨rfl, by simp⟩
    | succ k =>
      simp only [callsFrom, List.getElem?_cons_succ] at h
      have := ih (i + 1) k h
      simp only [List.getElem?_cons_succ]
      refine ⟨?_, this.2⟩
      rw [this.1]
      congr 1
      omega

theorem callsFrom_append (i : Nat) (xs ys : List Bytes) :
    callsFrom i (xs ++ ys) = callsFrom i xs ++ callsFrom (i + xs.length) ys := by
  induction xs generalizing i with
  | nil => rfl
  | cons x xs ih =>
    have h := ih (i + 1)
    rw [show i + 1 + xs.length = i + (xs.length + 1) by omega] at h
    show callsFrom i (x :: (xs ++ ys)) = callsFrom i (x :: xs) ++ _
    simp only [callsFrom, List.length_cons, h, List.cons_append]

/-- Every run of the loop of `EncryptStream`, whatever its outcome, adds to the log calls whose
nonces follow the chunk positions. -/
theorem encLoop_sealed (env : Env) (gcm : Bytes) :
    ∀ (reads : List ReadResult) (i : Nat) (s : EncState),
      NonceOK s.nonce → s.chunkIndex = uint64 i →
      ∃ ws, (encLoop env gcm reads s).sealed = s.sealed ++ callsFrom i ws := by
  intro reads
  induction reads with
  | nil =>
    intro i s _ _
    exact ⟨[], by simp [encLoop, encFinish_sealed, callsFrom]⟩
  | cons r rs ih =>
    intro i s hn hi
    have after : ∀ (t : EncState) (j : Nat), NonceOK t.nonce → t.chunkIndex = uint64 j →
        ∃ ws, (encAfter (encLoop env gcm rs) t r.err).sealed = t.sealed ++ callsFrom j ws := by
      intro t j htn htj
      cases hre : r.err with
      | none => simp only [encAfter]; exact ih j t htn htj
      | some e =>
        refine ⟨[], ?_⟩
        cases e <;> simp [encAfter, encFinish_sealed, callsFrom]
    rw [encLoop]
    by_cases hlen : 0 < r.data.length
    · rw [if_pos hlen]
      have hlog := encChunk_sealed env gcm s r.data i hn hi
      cases hch : encChunk env gcm s r.data with
      | mk e1 s1 =>
        rw [hch] at hlog
        simp only at hlog
        cases e1 with
        | some e => exact ⟨[r.data], by simp only [hlog]; rfl⟩
        | none =>
          obtain ⟨_, hci, hn1, _⟩ := encChunk_ok hn hi hch
          obtain ⟨ws, hws⟩ := after s1 (i + 1) (by rw [hn1]; exact NonceOK_Nonce i) hci
          refine ⟨r.data :: ws, ?_⟩
          simp only [hws, hlog, callsFrom, List.append_assoc, List.singleton_append]
    · rw [if_neg hlen]
      exact after s i hn hi

/-- The log of `Seal` calls of every run of `EncryptStream`. -/
theorem EncryptStream_sealed (env : Env) (reads : List ReadResult) (w : Writer)
    (password masterSalt : Bytes) (salt : Except Error Bytes) :
    ∃ ws, (EncryptStream env reads w password masterSalt salt).sealed = callsFrom 0 ws := by
  unfold EncryptStream
  simp only []
  split
  · exact ⟨[], rfl⟩
  · split
    · exact ⟨[], rfl⟩
    · split
      · exact ⟨[], rfl⟩
      · rename_i gcm _
        obtain ⟨ws, h⟩ := encLoop_sealed env gcm reads 0
          { w := _, chunkIndex := 0, nonce := List.replicate NonceSize 0, sealed := [] }
          NonceOK_init rfl
        exact ⟨ws, by simpa using h⟩

/-- Every run of the loop of `DecryptStream`, whatever its outcome, adds to the log calls whose
nonces follow the chunk positions. -/
theorem decLoop_opened (env : Env) (gcm : Bytes) :
    ∀ (fuel : Nat) (r : Bytes) (i : Nat) (s : DecState) (res : DecResult),
      NonceOK s.nonce → s.chunkIndex = uint64 i → decLoop env gcm fuel r s = some res →
      ∃ cs, res.opened = s.opened ++ callsFrom i cs := by
  intro fuel
  induction fuel with
  | zero => intro r i s res _ _ h; simp [decLoop] at h
  | succ fuel ih =>
    intro r i s res hn hi h
    have hnonce : putNonce s.nonce s.chunkIndex = Nonce i := by
      rw [putNonce_eq hn, hi, Nonce_uint64]
    rw [decLoop] at h
    simp only [hnonce] at h
    split at h
    · simp only [Option.some.injEq] at h; subst h; exact ⟨[], by simp [callsFrom]⟩
    · simp only [Option.some.injEq] at h; subst h; exact ⟨[], by simp [callsFrom]⟩
    · split at h
      · simp only [Option.some.injEq] at h; subst h; exact ⟨[], by simp [callsFrom]⟩
      · split at h
        · simp only [Option.some.injEq] at h; subst h; exact ⟨[], by simp [callsFrom]⟩
        · split at h
          · simp only [Option.some.injEq] at h; subst h; exact ⟨[], by simp [callsFrom]⟩
          · rename_i c r2 _
            split at h
            · simp only [Option.some.injEq] at h; subst h; exact ⟨[c], rfl⟩
            · split at h
              · simp only [Option.some.injEq] at h; subst h; exact ⟨[c], rfl⟩
              · obtain ⟨cs, hcs⟩ := ih _ (i + 1) _ res (NonceOK_Nonce i)
                  (by simp only [hi, uint64_succ]) h
                exact ⟨c :: cs, by simp [hcs, callsFrom]⟩

/-- The log of `Open` calls of every run of `DecryptStream`. -/
theorem DecryptStream_opened {env : Env} {r : Bytes} {w : Writer} {password masterSalt : Bytes}
    {res : DecResult} (h : DecryptStream env r w password masterSalt = some res) :
    ∃ cs, res.opened = callsFrom 0 cs := by
  unfold DecryptStream at h
  simp only [] at h
  split at h
  · simp only [Option.some.injEq] at h; subst h; exact ⟨[], rfl⟩
  · split at h
    · simp only [Option.some.injEq] at h; subst h; exact ⟨[], rfl⟩
    · obtain ⟨cs, hcs⟩ := decLoop_opened env _ _ _ 0 _ res NonceOK_init rfl h
      exact ⟨cs, by simpa using hcs⟩

theorem callsFrom_getElem?_lt (i : Nat) (xs : List Bytes) (k : Nat) (h : k < xs.length) :
    (callsFrom i xs)[k]? = some { nonce := Nonce (i + k), input := xs.get ⟨k, h⟩ } := by
  induction xs generalizing i k with
  | nil => simp at h
  | cons x xs ih =>
    cases k with
    | zero => simp [callsFrom]
    | succ k =>
      simp only [callsFrom, List.getElem?_cons_succ]
      rw [ih (i + 1) k (by simpa using h)]
      rw [show i + 1 + k = i + (k + 1) by omega]
      rfl

/-- With a sink that takes every write and reads that report nothing but `io.EOF`, the loop of
`EncryptStream` returns `nil`. -/
theorem encLoop_no_fault (env : Env) (gcm : Bytes) :
    ∀ (reads : List ReadResult) (s : EncState), s.w.faults = [] →
      (∀ r ∈ reads, r.err = none ∨ r.err = some Error.EOF) →
      (encLoop env gcm reads s).err = none := by
  intro reads
  induction reads with
  | nil =>
    intro s hw _
    simp [encLoop, encFinish, Write_nofault _ _ hw]
  | cons r rs ih =>
    intro s hw hr
    have after : ∀ t : EncState, t.w.faults = [] →
        (encAfter (encLoop env gcm rs) t r.err).err = none := by
      intro t ht
      rcases hr r (List.mem_cons_self _ _) with h | h
      · rw [h]
        simp only [encAfter]
        exact ih t ht (fun r1 h1 => hr r1 (List.mem_cons_of_mem _ h1))
      · rw [h]
        simp [encAfter, encFinish, Write_nofault _ _ ht]
    rw [encLoop]
    by_cases hlen : 0 < r.data.length
    · rw [if_pos hlen]
      obtain ⟨s1, hch, hs1⟩ : ∃ s1, encChunk env gcm s r.data = (none, s1) ∧ s1.w.faults = [] := by
        unfold encChunk
        simp only [Write_nofault _ _ hw]
        exact ⟨_, rfl, rfl⟩
      rw [hch]
      exact after s1 hs1
    · rw [if_neg hlen]
      exact after s hw

theorem EncryptStream_no_fault {env : Env} {reads : List ReadResult} {w : Writer}
    {password masterSalt fileSalt gcm : Bytes}
    (hkey : setupGCM env (env.DeriveKey password masterSalt) fileSalt = .ok gcm)
    (hw : w.faults = []) (hr : ∀ r ∈ reads, r.err = none ∨ r.err = some Error.EOF) :
    (EncryptStream env reads w password masterSalt (.ok fileSalt)).err = none := by
  unfold EncryptStream
  simp only [hkey, Write_nofault _ _ hw]
  exact encLoop_no_fault env gcm reads _ rfl hr

theorem windows_replicate (n : Nat) (p : Bytes) (hp : 0 < p.length) :
    windows (List.replicate n { data := p, err := none }) = List.replicate n p := by
  induction n with
  | zero => rfl
  | succ n ih => simp [List.replicate_succ, windows, hp, ih]

/-! ## Runs of the decoder that return `nil`, and rejected chunks -/

theorem openFrom_cons {env : Env} {gcm : Bytes} {i : Nat} {c p : Bytes} {cs ps : List Bytes}
    (h1 : env.Open gcm (Nonce i) c = some p) (h2 : openFrom env gcm (i + 1) cs = some ps) :
    openFrom env gcm i (c :: cs) = some (p :: ps) := by
  simp [openFrom, h1, h2]

/-- A run of the loop of `DecryptStream` that returns `nil` has read a sequence of data chunks
that `Open` accepted and then either the terminator or the end of the source. -/
theorem decLoop_accept (env : Env) (gcm : Bytes) :
    ∀ (fuel : Nat) (r : Bytes) (i : Nat) (s : DecState) (res : DecResult),
      NonceOK s.nonce → s.chunkIndex = uint64 i → decLoop env gcm fuel r s = some res →
      res.err = none →
      ∃ cs ps, (∀ c ∈ cs, ChunkOK c) ∧ openFrom env gcm i cs = some ps ∧
        res.w.data = s.w.data ++ ps.flatten ∧
        (r = frames cs ++ (terminator ++ res.rest) ∨ (r = frames cs ∧ res.rest = [])) := by
  intro fuel
  induction fuel with
  | zero => intro r i s res _ _ h; simp [decLoop] at h
  | succ fuel ih =>
    intro r i s res hn hi h hok
    have hnonce : putNonce s.nonce s.chunkIndex = Nonce i := by
      rw [putNonce_eq hn, hi, Nonce_uint64]
    rw [decLoop] at h
    simp only [hnonce] at h
    split at h
    · rename_i r1 hr
      simp only [Option.some.injEq] at h
      subst h
      obtain ⟨_, hr1, he⟩ := ReadFull_error hr
      rcases he with ⟨hnil, _⟩ | ⟨_, he⟩
      · exact ⟨[], [], by simp, rfl, by simp, Or.inr ⟨by simpa [frames] using hnil, hr1⟩⟩
      · simp at he
    · simp only [Option.some.injEq] at h; subst h; simp at hok
    · rename_i bs r1 hr
      obtain ⟨hr1, hbs⟩ := ReadFull_ok hr
      have hput := PutUint32_Uint32 hbs
      split at h
      · rename_i hzero
        simp only [Option.some.injEq] at h
        subst h
        rw [hzero] at hput
        refine ⟨[], [], by simp, rfl, by simp, Or.inl ?_⟩
        rw [hr1, ← hput]
        rfl
      · rename_i hnz
        split at h
        · simp only [Option.some.injEq] at h; subst h; simp at hok
        · rename_i hmax
          split at h
          · simp only [Option.some.injEq] at h; subst h; simp at hok
          · rename_i c r2 hr2
            obtain ⟨hr3, hc⟩ := ReadFull_ok hr2
            have hck : ChunkOK c := ⟨by rw [hc]; omega, by rw [hc]; omega⟩
            have hfr : r = frame c ++ r2 := by
              rw [hr1, hr3, frame, hc, hput, List.append_assoc]
            split at h
            · simp only [Option.some.injEq] at h; subst h; simp at hok
            · rename_i p hopen
              split at h
              · simp only [Option.some.injEq] at h; subst h; simp at hok
              · rename_i w1 hw1
                obtain ⟨cs, ps, hcs, hop, hdata, hshape⟩ := ih r2 (i + 1) _ res (NonceOK_Nonce i)
                  (by simp only [hi, uint64_succ]) h hok
                refine ⟨c :: cs, p :: ps, ?_, openFrom_cons hopen hop, ?_, ?_⟩
                · intro c1 hc1
                  rcases List.mem_cons.mp hc1 with h1 | h1
                  · rw [h1]; exact hck
                  · exact hcs c1 h1
                · rw [hdata]
                  simp only [Write_data hw1, List.flatten_cons, List.append_assoc]
                · rcases hshape with h1 | ⟨h1, h2⟩
                  · left
                    rw [hfr, h1]
                    simp [frames, List.append_assoc]
                  · right
                    refine ⟨?_, h2⟩
                    rw [hfr, h1]
                    rfl

/-- While every logged call was accepted, a call that `Open` rejects ends the run with the
error `decryption failed or invalid password`, and it is the last call of the run. -/
theorem decLoop_rejected (env : Env) (gcm : Bytes) :
    ∀ (fuel : Nat) (r : Bytes) (s : DecState) (res : DecResult),
      (∀ c ∈ s.opened, env.Open gcm c.nonce c.input ≠ none) →
      decLoop env gcm fuel r s = some res →
      ∀ k c, res.opened[k]? = some c → env.Open gcm c.nonce c.input = none →
        res.err = some Error.decryptionFailed ∧ k + 1 = res.opened.length := by
  intro fuel
  induction fuel with
  | zero => intro r s res _ h; simp [decLoop] at h
  | succ fuel ih =>
    intro r s res hs h
    have stop : ∀ e rest, ∀ k c,
        ({ err := e, w := s.w, rest := rest, opened := s.opened } : DecResult).opened[k]? = some c →
        env.Open gcm c.nonce c.input = none →
        e = some Error.decryptionFailed ∧ k + 1 = s.opened.length := by
      intro e rest k c hc hrej
      exact absurd hrej (hs c (List.getElem?_mem hc))
    rw [decLoop] at h
    split at h
    · simp only [Option.some.injEq] at h; subst h; exact stop _ _
    · simp only [Option.some.injEq] at h; subst h; exact stop _ _
    · simp only [] at h
      split at h
      · simp only [Option.some.injEq] at h; subst h; exact stop _ _
      · split at h
        · simp only [Option.some.injEq] at h; subst h; exact stop _ _
        · split at h
          · simp only [Option.some.injEq] at h; subst h; exact stop _ _
          · rename_i c1 r2 _
            split at h
            · simp only [Option.some.injEq] at h
              subst h
              intro k c hc hrej
              refine ⟨rfl, ?_⟩
              simp only [List.length_append, List.length_singleton]
              by_cases hk : k < s.opened.length
              · rw [List.getElem?_append_left hk] at hc
                exact absurd hrej (hs c (List.getElem?_mem hc))
              · have hlt := (List.getElem?_eq_some_iff.mp hc).1
                simp only [List.length_append, List.length_singleton] at hlt
                omega
            · rename_i p hopen
              have hs1 : ∀ c ∈ s.opened ++
                  [({ nonce := putNonce s.nonce s.chunkIndex, input := c1 } : Call)],
                  env.Open gcm c.nonce c.input ≠ none := by
                intro c hc
                rcases List.mem_append.mp hc with h1 | h1
                · exact hs c h1
                · rw [List.mem_singleton.mp h1]
                  simp [hopen]
              split at h
              · simp only [Option.some.injEq] at h
                subst h
                intro k c hc hrej
                exact absurd hrej (hs1 c (List.getElem?_mem hc))
              · exact ih _ _ res hs1 h

/-! ## Number of chunks for a source that fills the buffer -/

theorem windows_count {reads : List ReadResult} (h : FillsBuffer reads) :
    (windows reads).length = ((delivered reads).length + 65535) / 65536 := by
  induction reads with
  | nil => rfl
  | cons r rs ih =>
    obtain ⟨_, hsize, hrest⟩ := h
    unfold ChunkSize at hsize
    cases hre : r.err with
    | none =>
      simp only [windows, delivered, hre, List.length_append]
      rcases hsize with hfull | ⟨hshort, hnil⟩
      · have := ih (hrest hre)
        simp only [hfull, show 0 < 64 * 1024 by norm_num, if_true, List.length_singleton]
        omega
      · have hd := hnil hre
        rw [windows_eq_nil hd, hd]
        by_cases hpos : 0 < r.data.length
        · simp only [hpos, if_true, List.length_singleton, List.length_nil]
          omega
        · simp only [hpos, if_false, List.length_nil]
          omega
    | some e =>
      simp only [windows, delivered, hre, List.length_append, List.length_nil]
      by_cases hpos : 0 < r.data.length
      · simp only [hpos, if_true, List.length_singleton]
        omega
      · simp only [hpos, if_false, List.length_nil]
        omega

theorem delivered_replicate (n : Nat) (p : Bytes) :
    (delivered (List.replicate n { data := p, err := none })).length = n * p.length := by
  induction n with
  | zero => simp [delivered]
  | succ n ih =>
    simp only [List.replicate_succ, delivered, List.length_append, ih]
    rw [Nat.succ_mul]
    omega

/-! ## Truncated sources -/

theorem ReadFull_short {r : Bytes} {n : Nat} (h : r.length < n) :
    ∃ e, (e = Error.EOF ∨ e = Error.ErrUnexpectedEOF) ∧ ReadFull r n = (.error e, []) := by
  unfold ReadFull
  rw [if_neg (by omega)]
  by_cases h0 : r.length = 0
  · exact ⟨_, Or.inl rfl, by rw [if_pos h0]⟩
  · exact ⟨_, Or.inr rfl, by rw [if_neg h0]⟩

/-- An iteration of the decoder on a source that stops inside a frame returns a short-read
error and touches neither the sink nor the log. -/
theorem decLoop_inside_frame (env : Env) (gcm : Bytes) (fuel : Nat) (x : Bytes) (s : DecState)
    (hx : EndsInsideFrame x) :
    ∃ e, (e = Error.EOF ∨ e = Error.ErrUnexpectedEOF) ∧
      decLoop env gcm (fuel + 1) x s
        = some { err := some e, w := s.w, rest := [], opened := s.opened } := by
  rcases hx with ⟨h1, h3⟩ | ⟨L, tail, hx, h1, hmax, hlt⟩
  · refine ⟨Error.ErrUnexpectedEOF, Or.inr rfl, ?_⟩
    have hr : ReadFull x 4 = (.error Error.ErrUnexpectedEOF, []) := by
      unfold ReadFull
      rw [if_neg (by omega), if_neg (by omega)]
    rw [decLoop, hr]
  · obtain ⟨e, he, hr⟩ := ReadFull_short hlt
    refine ⟨e, he, ?_⟩
    have h0 : ¬ L = 0 := by omega
    have hm : ¬ MaxChunkSize < L := by unfold MaxChunkSize ChunkSize; omega
    rw [hx, decLoop_header env gcm fuel L tail s (by omega), if_neg h0, if_neg hm, hr]

/-- The decoder on well-formed chunks followed by a source end inside a frame, for any cipher
and any sink: the run returns an error, and every call of `Open` it made was on one of the
complete chunks. -/
theorem decLoop_truncated (env : Env) (gcm : Bytes) (x : Bytes) (hx : EndsInsideFrame x) :
    ∀ (cs : List Bytes) (fuel i : Nat) (s : DecState) (res : DecResult),
      NonceOK s.nonce → s.chunkIndex = uint64 i → (∀ c ∈ cs, ChunkOK c) →
      decLoop env gcm fuel (frames cs ++ x) s = some res →
      res.err ≠ none ∧ ∃ k, k ≤ cs.length ∧ res.opened = s.opened ++ callsFrom i (cs.take k) := by
  intro cs
  induction cs with
  | nil =>
    intro fuel i s res _ _ _ h
    cases fuel with
    | zero => simp [decLoop] at h
    | succ fuel =>
      obtain ⟨e, _, he⟩ := decLoop_inside_frame env gcm fuel x s hx
      simp only [frames, List.nil_append] at h
      rw [he] at h
      simp only [Option.some.injEq] at h
      subst h
      exact ⟨by simp, 0, Nat.le_refl _, by simp [callsFrom]⟩
  | cons c cs ih =>
    intro fuel i s res hn hi hcs h
    cases fuel with
    | zero => simp [decLoop] at h
    | succ fuel =>
      have hc : ChunkOK c := hcs c (List.mem_cons_self _ _)
      have hL : c.length < 2 ^ 32 := by
        have := hc.2
        unfold MaxChunkSize ChunkSize at this
        omega
      have hnz : ¬ c.length = 0 := by have := hc.1; omega
      have hmax : ¬ MaxChunkSize < c.length := by have := hc.2; omega
      have hnonce : putNonce s.nonce s.chunkIndex = Nonce i := by
        rw [putNonce_eq hn, hi, Nonce_uint64]
      have hfr : frames (c :: cs) ++ x = PutUint32 c.length ++ (c ++ (frames cs ++ x)) := by
        simp [frames, frame, List.append_assoc]
      rw [hfr, decLoop_header env gcm _ _ _ s hL, if_neg hnz, if_neg hmax, ReadFull_append] at h
      simp only [hnonce] at h
      split at h
      · simp only [Option.some.injEq] at h
        subst h
        exact ⟨by simp, 1, by simp, by simp [callsFrom]⟩
      · split at h
        · simp only [Option.some.injEq] at h
          subst h
          exact ⟨by simp, 1, by simp, by simp [callsFrom]⟩
        · obtain ⟨herr, k, hk, hlog⟩ := ih fuel (i + 1) _ res (NonceOK_Nonce i)
            (by simp only [hi, uint64_succ]) (fun c1 h1 => hcs c1 (List.mem_cons_of_mem _ h1)) h
          refine ⟨herr, k + 1, by simp only [List.length_cons]; omega, ?_⟩
          rw [hlog]
          simp [callsFrom, List.append_assoc]

/-! ## Failing reads and writes in the encoder -/

theorem Write_faults (w : Writer) (p : Bytes) : (w.Write p).1.faults = w.faults.drop 1 := by
  unfold Writer.Write
  split <;> simp_all

theorem Write_err_some {w w1 : Writer} {p : Bytes} {e : Error} (h : w.Write p = (w1, some e)) :
    ∀ n1 e1, w.faults[0]? = some (some (n1, e1)) → e1 = e := by
  intro n1 e1 h0
  unfold Writer.Write at h
  split at h
  · simp at h
  · simp at h
  · rename_i n2 e2 fs hf
    rw [hf] at h0
    simp only [Prod.mk.injEq, Option.some.injEq] at h
    simp only [List.getElem?_cons_zero, Option.some.injEq, Prod.mk.injEq] at h0
    rw [← h0.2, h.2]

theorem Write_err_none {w w1 : Writer} {p : Bytes} (h : w.Write p = (w1, none)) :
    ∀ n1 e1, w.faults[0]? ≠ some (some (n1, e1)) := by
  intro n1 e1 h0
  unfold Writer.Write at h
  split at h
  · rename_i hf; rw [hf] at h0; simp at h0
  · rename_i fs hf; rw [hf] at h0; simp at h0
  · simp at h

theorem Consumes_refl (F : List (Option (Nat × Error))) (err : Option Error) :
    Consumes F F err :=
  ⟨0, by simp, fun j n e _ hj => absurd hj (Nat.not_lt_zero j)⟩

theorem Consumes_fail {w w1 : Writer} {p : Bytes} {e : Error} (h : w.Write p = (w1, some e)) :
    Consumes w.faults w1.faults (some e) := by
  refine ⟨1, ?_, ?_⟩
  · have := Write_faults w p
    rw [h] at this
    exact this
  · intro j n1 e1 hj hlt
    have hj0 : j = 0 := by omega
    subst hj0
    exact ⟨rfl, by rw [Write_err_some h n1 e1 hj]⟩

theorem Consumes_step {w w1 : Writer} {p : Bytes} {F : List (Option (Nat × Error))}
    {err : Option Error} (h : w.Write p = (w1, none)) (hc : Consumes w1.faults F err) :
    Consumes w.faults F err := by
  obtain ⟨k, hF, hk⟩ := hc
  have hf : w1.faults = w.faults.drop 1 := by
    have := Write_faults w p
    rw [h] at this
    exact this
  refine ⟨k + 1, ?_, ?_⟩
  · rw [hF, hf, List.drop_drop, Nat.add_comm]
  · intro j n1 e1 hj hlt
    cases j with
    | zero => exact absurd hj (Write_err_none h n1 e1)
    | succ j =>
      have hj1 : w1.faults[j]? = some (some (n1, e1)) := by
        rw [hf, List.getElem?_drop, Nat.add_comm]
        exact hj
      obtain ⟨h1, h2⟩ := hk j n1 e1 hj1 (by omega)
      exact ⟨by omega, h2⟩

theorem encFinish_consumes (s : EncState) :
    Consumes s.w.faults (encFinish s).w.faults (encFinish s).err := by
  unfold encFinish
  cases hw : s.w.Write (PutUint32 (uint32 0)) with
  | mk w1 e1 =>
    cases e1 with
    | some e => exact Consumes_fail hw
    | none => exact Consumes_step hw (Consumes_refl _ _)

theorem encChunk_consumes (env : Env) (gcm : Bytes) (s : EncState) (window : Bytes) :
    (∀ e s1, encChunk env gcm s window = (some e, s1) →
      Consumes s.w.faults s1.w.faults (some e)) ∧
    (∀ s1, encChunk env gcm s window = (none, s1) →
      ∀ F err, Consumes s1.w.faults F err → Consumes s.w.faults F err) := by
  unfold encChunk
  simp only []
  cases hw1 : s.w.Write (PutUint32 (uint32 (env.Seal gcm (putNonce s.nonce s.chunkIndex)
      window).length)) with
  | mk w1 e1 =>
    cases e1 with
    | some e =>
      refine ⟨?_, ?_⟩
      · intro e' s1 h
        simp only [Prod.mk.injEq, Option.some.injEq] at h
        rw [← h.1, ← h.2]
        exact Consumes_fail hw1
      · intro s1 h
        simp at h
    | none =>
      simp only []
      cases hw2 : w1.Write (env.Seal gcm (putNonce s.nonce s.chunkIndex) window) with
      | mk w2 e2 =>
        cases e2 with
        | some e =>
          refine ⟨?_, ?_⟩
          · intro e' s1 h
            simp only [Prod.mk.injEq, Option.some.injEq] at h
            rw [← h.1, ← h.2]
            exact Consumes_step hw1 (Consumes_fail hw2)
          · intro s1 h
            simp at h
        | none =>
          refine ⟨?_, ?_⟩
          · intro e' s1 h
            simp at h
          · intro s1 h F err hc
            simp only [Prod.mk.injEq, true_and] at h
            rw [← h] at hc
            exact Consumes_step hw1 (Consumes_step hw2 hc)

/-- Every run of the loop of `EncryptStream`: a `Write` call that fails is the last call made,
and its error is returned. -/
theorem encLoop_consumes (env : Env) (gcm : Bytes) :
    ∀ (reads : List ReadResult) (s : EncState),
      Consumes s.w.faults (encLoop env gcm reads s).w.faults (encLoop env gcm reads s).err := by
  intro reads
  induction reads with
  | nil => intro s; simp only [encLoop]; exact encFinish_consumes s
  | cons r rs ih =>
    intro s
    have after : ∀ t : EncState,
        Consumes t.w.faults (encAfter (encLoop env gcm rs) t r.err).w.faults
          (encAfter (encLoop env gcm rs) t r.err).err := by
      intro t
      cases hre : r.err with
      | none => simp only [encAfter]; exact ih t
      | some e =>
        cases e with
        | EOF => simp only [encAfter]; exact encFinish_consumes t
        | ErrUnexpectedEOF => simp only [encAfter]; exact Consumes_refl _ _
        | chunkTooLarge => simp only [encAfter]; exact Consumes_refl _ _
        | decryptionFailed => simp only [encAfter]; exact Consumes_refl _ _
        | other c => simp only [encAfter]; exact Consumes_refl _ _
    rw [encLoop]
    by_cases hlen : 0 < r.data.length
    · rw [if_pos hlen]
      obtain ⟨hfail, hgo⟩ := encChunk_consumes env gcm s r.data
      cases hch : encChunk env gcm s r.data with
      | mk e1 s1 =>
        cases e1 with
        | some e => exact hfail e s1 hch
        | none => exact hgo s1 hch _ _ (after s1)
    · rw [if_neg hlen]
      exact after s

theorem EncryptStream_consumes (env : Env) (reads : List ReadResult) (w : Writer)
    (password masterSalt : Bytes) (salt : Except Error Bytes) :
    Consumes w.faults (EncryptStream env reads w password masterSalt salt).w.faults
      (EncryptStream env reads w password masterSalt salt).err := by
  unfold EncryptStream
  simp only []
  split
  · exact Consumes_refl _ _
  · rename_i fileSalt
    cases hw : w.Write fileSalt with
    | mk w1 e1 =>
      cases e1 with
      | some e => exact Consumes_fail hw
      | none =>
        simp only []
        split
        · exact Consumes_step hw (Consumes_refl _ _)
        · exact Consumes_step hw (encLoop_consumes env _ reads _)

theorem encChunk_nofault (env : Env) (gcm : Bytes) (s : EncState) (window : Bytes) (i : Nat)
    (hw : s.w.faults = []) (hn : NonceOK s.nonce) (hi : s.chunkIndex = uint64 i) :
    encChunk env gcm s window
      = (none, { w := { data := s.w.data ++ frame (env.Seal gcm (Nonce i) window), faults := [] },
                 chunkIndex := uint64 (i + 1), nonce := Nonce i,
                 sealed := s.sealed ++ [{ nonce := Nonce i, input := window }] }) := by
  have hnonce : putNonce s.nonce s.chunkIndex = Nonce i := by
    rw [putNonce_eq hn, hi, Nonce_uint64]
  unfold encChunk
  simp only [hnonce, PutUint32_uint32]
  rw [Write_nofault _ _ hw]
  simp only []
  rw [Write_nofault _ _ rfl]
  simp only [frame, List.append_assoc, hi, uint64_succ]

theorem windows_append_err (pre : List ReadResult) (d : Bytes) (e : Error)
    (hpre : ∀ r ∈ pre, r.err = none) :
    windows (pre ++ [{ data := d, err := some e }])
      = windows pre ++ (if 0 < d.length then [d] else []) := by
  induction pre with
  | nil => simp [windows]
  | cons r rs ih =>
    have hr : r.err = none := hpre r (List.mem_cons_self _ _)
    have := ih (fun r1 h1 => hpre r1 (List.mem_cons_of_mem _ h1))
    show windows (r :: (rs ++ [{ data := d, err := some e }])) = windows (r :: rs) ++ _
    simp only [windows, hr, this, List.append_assoc]

/-- A read that fails with an error other than `io.EOF`, after reads that report no error and
with a sink that takes every write: the loop returns that error; the sink has received the
data chunks of the windows read, the window of the failing read included, and no terminator. -/
theorem encLoop_read_error (env : Env) (gcm : Bytes) (d : Bytes) (e : Error)
    (post : List ReadResult) (he : e ≠ Error.EOF) :
    ∀ (pre : List ReadResult) (i : Nat) (s : EncState),
      (∀ r ∈ pre, r.err = none) → s.w.faults = [] → NonceOK s.nonce →
      s.chunkIndex = uint64 i →
      (encLoop env gcm (pre ++ { data := d, err := some e } :: post) s).err = some e ∧
        (encLoop env gcm (pre ++ { data := d, err := some e } :: post) s).w.data
          = s.w.data ++
              frames (sealFrom env gcm i (windows pre ++ (if 0 < d.length then [d] else []))) := by
  have stop : ∀ t : EncState,
      encAfter (encLoop env gcm post) t (some e) = { err := some e, w := t.w, sealed := t.sealed } := by
    intro t
    cases e with
    | EOF => exact absurd rfl he
    | ErrUnexpectedEOF => rfl
    | chunkTooLarge => rfl
    | decryptionFailed => rfl
    | other c => rfl
  intro pre
  induction pre with
  | nil =>
    intro i s _ hw hn hi
    simp only [List.nil_append, windows, encLoop]
    by_cases hlen : 0 < d.length
    · simp only [if_pos hlen, encChunk_nofault env gcm s d i hw hn hi, stop]
      simp [sealFrom, frames]
    · simp only [if_neg hlen, stop]
      simp [sealFrom, frames]
  | cons r rs ih =>
    intro i s hpre hw hn hi
    have hr : r.err = none := hpre r (List.mem_cons_self _ _)
    have hrs : ∀ r1 ∈ rs, r1.err = none := fun r1 h1 => hpre r1 (List.mem_cons_of_mem _ h1)
    show (encLoop env gcm (r :: (rs ++ { data := d, err := some e } :: post)) s).err = some e ∧
      (encLoop env gcm (r :: (rs ++ { data := d, err := some e } :: post)) s).w.data
        = s.w.data ++ frames (sealFrom env gcm i
            (windows (r :: rs) ++ (if 0 < d.length then [d] else [])))
    simp only [encLoop, windows, hr]
    by_cases hlen : 0 < r.data.length
    · simp only [if_pos hlen, encChunk_nofault env gcm s r.data i hw hn hi, encAfter]
      obtain ⟨h1, h2⟩ := ih (i + 1)
        { w := { data := s.w.data ++ frame (env.Seal gcm (Nonce i) r.data), faults := [] },
          chunkIndex := uint64 (i + 1), nonce := Nonce i,
          sealed := s.sealed ++ [{ nonce := Nonce i, input := r.data }] }
        hrs rfl (NonceOK_Nonce i) rfl
      refine ⟨h1, ?_⟩
      rw [h2]
      simp [sealFrom, frames, List.append_assoc]
    · simp only [if_neg hlen, encAfter]
      obtain ⟨h1, h2⟩ := ih i s hrs hw hn hi
      refine ⟨h1, ?_⟩
      rw [h2]
      simp

/-- The loop of `EncryptStream` returns `nil` only if the source reported end of input. -/
theorem encLoop_ok_eof (env : Env) (gcm : Bytes) :
    ∀ (reads : List ReadResult) (s : EncState),
      (encLoop env gcm reads s).err = none → EOFReached reads := by
  intro reads
  induction reads with
  | nil => intro s _; trivial
  | cons r rs ih =>
    intro s h
    have after : ∀ t : EncState, (encAfter (encLoop env gcm rs) t r.err).err = none →
        EOFReached (r :: rs) := by
      intro t ht
      cases hre : r.err with
      | none =>
        rw [hre] at ht
        exact Or.inr ⟨hre, ih t ht⟩
      | some e =>
        rw [hre] at ht
        cases e with
        | EOF => exact Or.inl hre
        | ErrUnexpectedEOF => simp [encAfter] at ht
        | chunkTooLarge => simp [encAfter] at ht
        | decryptionFailed => simp [encAfter] at ht
        | other c => simp [encAfter] at ht
    rw [encLoop] at h
    by_cases hlen : 0 < r.data.length
    · rw [if_pos hlen] at h
      cases hch : encChunk env gcm s r.data with
      | mk e1 s1 =>
        rw [hch] at h
        cases e1 with
        | some e => simp at h
        | none => exact after s1 h
    · rw [if_neg hlen] at h
      exact after s h

/-! ## Bytes after the terminator -/

/-- A run of the loop of `DecryptStream` that returns within an iteration budget returns the
same result within any larger one. -/
theorem decLoop_fuel_mono (env : Env) (gcm : Bytes) :
    ∀ (fuel fuel1 : Nat) (r : Bytes) (s : DecState) (res : DecResult),
      decLoop env gcm fuel r s = some res → fuel ≤ fuel1 →
      decLoop env gcm fuel1 r s = some res := by
  intro fuel
  induction fuel with
  | zero => intro fuel1 r s res h; simp [decLoop] at h
  | succ fuel ih =>
    intro fuel1 r s res h hle
    obtain ⟨f1, hf1⟩ : ∃ f1, fuel1 = f1 + 1 := ⟨fuel1 - 1, by omega⟩
    subst hf1
    rw [decLoop] at h ⊢
    cases hr : ReadFull r 4 with
    | mk x r1 =>
      rw [hr] at h
      cases x with
      | error e => cases e <;> exact h
      | ok bs =>
        simp only [] at h ⊢
        by_cases h0 : Uint32 bs = 0
        · rw [if_pos h0] at h ⊢; exact h
        · rw [if_neg h0] at h ⊢
          by_cases h1 : MaxChunkSize < Uint32 bs
          · rw [if_pos h1] at h ⊢; exact h
          · rw [if_neg h1] at h ⊢
            cases hr2 : ReadFull r1 (Uint32 bs) with
            | mk y r2 =>
              rw [hr2] at h
              cases y with
              | error e => exact h
              | ok c =>
                simp only [] at h ⊢
                cases hop : env.Open gcm (putNonce s.nonce s.chunkIndex) c with
                | none => rw [hop] at h; exact h
                | some p =>
                  rw [hop] at h
                  simp only [] at h ⊢
                  cases hw : s.w.Write p with
                  | mk w1 e1 =>
                    rw [hw] at h
                    cases e1 with
                    | some e => exact h
                    | none => exact ih f1 _ _ res h (by omega)

/-- The decoder on well-formed chunks followed by the terminator, for any cipher and sink:
bytes appended to the source are left unread and change nothing else; and a run that returns
`nil` has stopped at the terminator. -/
theorem decLoop_trailing (env : Env) (gcm : Bytes) (rest0 t : Bytes) :
    ∀ (cs : List Bytes) (fuel : Nat) (s : DecState) (res : DecResult),
      (∀ c ∈ cs, ChunkOK c) →
      decLoop env gcm fuel (frames cs ++ (terminator ++ rest0)) s = some res →
      decLoop env gcm fuel (frames cs ++ (terminator ++ (rest0 ++ t))) s
          = some { err := res.err, w := res.w, rest := res.rest ++ t, opened := res.opened } ∧
        (res.err = none → res.rest = rest0) := by
  intro cs
  induction cs with
  | nil =>
    intro fuel s res _ h
    cases fuel with
    | zero => simp [decLoop] at h
    | succ fuel =>
      simp only [frames, List.nil_append] at h ⊢
      rw [decLoop_terminator] at h ⊢
      simp only [Option.some.injEq] at h
      subst h
      exact ⟨rfl, fun _ => rfl⟩
  | cons c cs ih =>
    intro fuel s res hcs h
    cases fuel with
    | zero => simp [decLoop] at h
    | succ fuel =>
      have hc : ChunkOK c := hcs c (List.mem_cons_self _ _)
      have hL : c.length < 2 ^ 32 := by
        have := hc.2
        unfold MaxChunkSize ChunkSize at this
        omega
      have hnz : ¬ c.length = 0 := by have := hc.1; omega
      have hmax : ¬ MaxChunkSize < c.length := by have := hc.2; omega
      have hfr : ∀ X : Bytes, frames (c :: cs) ++ X = PutUint32 c.length ++ (c ++ (frames cs ++ X)) := by
        intro X
        simp [frames, frame, List.append_assoc]
      rw [hfr, decLoop_header env gcm _ _ _ s hL, if_neg hnz, if_neg hmax, ReadFull_append] at h ⊢
      simp only [] at h ⊢
      cases hop : env.Open gcm (putNonce s.nonce s.chunkIndex) c with
      | none =>
        rw [hop] at h
        simp only [Option.some.injEq] at h
        subst h
        exact ⟨by simp [List.append_assoc], fun h1 => by simp at h1⟩
      | some p =>
        rw [hop] at h
        simp only [] at h ⊢
        cases hw : s.w.Write p with
        | mk w1 e1 =>
          rw [hw] at h
          cases e1 with
          | some e =>
            simp only [Option.some.injEq] at h
            subst h
            exact ⟨by simp [List.append_assoc], fun h1 => by simp at h1⟩
          | none =>
            exact ih fuel _ res (fun c1 h1 => hcs c1 (List.mem_cons_of_mem _ h1)) h

/-! ## `CountingWriter` -/

theorem CountingWriter.Write_eq {σ : Type} (under : σ → Bytes → (Int × Option Error) × σ)
    (w : CountingWriter σ) (p : Bytes) :
    w.Write under p
      = ((under w.Writer p).1,
          { Writer := (under w.Writer p).2,
            Count := uint64 (w.Count + uint64OfInt (under w.Writer p).1.1),
            Callback := w.Callback,
            called := if w.Callback then w.called ++ [(under w.Writer p).1.1] else w.called }) := by
  unfold CountingWriter.Write
  rfl

theorem count_step (c : Nat) (n : Int) :
    ((uint64 (c + uint64OfInt n) : Nat) : Int) = ((c : Int) + n) % 2 ^ 64 := by
  unfold uint64 uint64OfInt
  omega

/-- The writer after a sequence of `Write` calls, in terms of what the wrapped writer does on
the same calls. -/
theorem CountingWriter.writeAll_spec {σ : Type}
    (under : σ → Bytes → (Int × Option Error) × σ) :
    ∀ (ps : List Bytes) (w : CountingWriter σ), w.Count < 2 ^ 64 →
      (CountingWriter.writeAll under w ps).1 = (underAll under w.Writer ps).1 ∧
      (CountingWriter.writeAll under w ps).2.Writer = (underAll under w.Writer ps).2 ∧
      (((CountingWriter.writeAll under w ps).2.Count : Nat) : Int)
        = ((w.Count : Int) + (((underAll under w.Writer ps).1).map Prod.fst).sum) % 2 ^ 64 ∧
      (CountingWriter.writeAll under w ps).2.Callback = w.Callback ∧
      (CountingWriter.writeAll under w ps).2.called
        = (if w.Callback then w.called ++ ((underAll under w.Writer ps).1).map Prod.fst
           else w.called) := by
  intro ps
  induction ps with
  | nil =>
    intro w hC
    refine ⟨rfl, rfl, ?_, rfl, ?_⟩
    · simp only [CountingWriter.writeAll, underAll, List.map_nil, List.sum_nil]
      omega
    · simp [CountingWriter.writeAll, underAll]
  | cons p ps ih =>
    intro w hC
    have hstep := count_step w.Count (under w.Writer p).1.1
    have hlt : uint64 (w.Count + uint64OfInt (under w.Writer p).1.1) < 2 ^ 64 := by
      unfold uint64; omega
    obtain ⟨h1, h2, h3, h4, h5⟩ := ih
      { Writer := (under w.Writer p).2,
        Count := uint64 (w.Count + uint64OfInt (under w.Writer p).1.1),
        Callback := w.Callback,
        called := if w.Callback then w.called ++ [(under w.Writer p).1.1] else w.called } hlt
    simp only [CountingWriter.writeAll, underAll, CountingWriter.Write_eq]
    simp only [] at h1 h2 h3 h4 h5
    refine ⟨by rw [h1], h2, ?_, h4, ?_⟩
    · rw [h3, hstep]
      simp only [List.map_cons, List.sum_cons]
      omega
    · rw [h5]
      cases w.Callback <;> simp

/-! ## The windows sealed by any run of the encoder -/

/-- Every run of the loop of `EncryptStream`, whatever its outcome, has sealed the first
windows of the script, in order. -/
theorem encLoop_sealed_prefix (env : Env) (gcm : Bytes) :
    ∀ (reads : List ReadResult) (i : Nat) (s : EncState),
      NonceOK s.nonce → s.chunkIndex = uint64 i →
      ∃ ws, ws <+: windows reads ∧
        (encLoop env gcm reads s).sealed = s.sealed ++ callsFrom i ws := by
  intro reads
  induction reads with
  | nil =>
    intro i s _ _
    exact ⟨[], List.nil_prefix, by simp [encLoop, encFinish_sealed, callsFrom]⟩
  | cons r rs ih =>
    intro i s hn hi
    have after : ∀ (t : EncState) (j : Nat), NonceOK t.nonce → t.chunkIndex = uint64 j →
        ∃ ws, ws <+: (match r.err with
                      | none => windows rs
                      | some _ => []) ∧
          (encAfter (encLoop env gcm rs) t r.err).sealed = t.sealed ++ callsFrom j ws := by
      intro t j htn htj
      cases hre : r.err with
      | none => simp only [encAfter]; exact ih j t htn htj
      | some e =>
        refine ⟨[], List.nil_prefix, ?_⟩
        cases e <;> simp [encAfter, encFinish_sealed, callsFrom]
    rw [encLoop]
    by_cases hlen : 0 < r.data.length
    · rw [if_pos hlen]
      have hlog := encChunk_sealed env gcm s r.data i hn hi
      cases hch : encChunk env gcm s r.data with
      | mk e1 s1 =>
        rw [hch] at hlog
        simp only at hlog
        cases e1 with
        | some e =>
          refine ⟨[r.data], ?_, by simp only [hlog]; rfl⟩
          simp only [windows, if_pos hlen]
          exact List.prefix_append _ _
        | none =>
          obtain ⟨_, hci, hn1, _⟩ := encChunk_ok hn hi hch
          obtain ⟨ws, hpre, hws⟩ := after s1 (i + 1) (by rw [hn1]; exact NonceOK_Nonce i) hci
          refine ⟨r.data :: ws, ?_, ?_⟩
          · simp only [windows, if_pos hlen, List.singleton_append]
            exact (List.prefix_cons_inj r.data).mpr hpre
          · simp only [hws, hlog, callsFrom, List.append_assoc, List.singleton_append]
    · rw [if_neg hlen]
      obtain ⟨ws, hpre, hws⟩ := after s i hn hi
      exact ⟨ws, by simpa [windows, hlen] using hpre, hws⟩

/-- The log of `Seal` calls of every run of `EncryptStream`. -/
theorem EncryptStream_sealed_prefix (env : Env) (reads : List ReadResult) (w : Writer)
    (password masterSalt : Bytes) (salt : Except Error Bytes) :
    ∃ ws, ws <+: windows reads ∧
      (EncryptStream env reads w password masterSalt salt).sealed = callsFrom 0 ws := by
  unfold EncryptStream
  simp only []
  split
  · exact ⟨[], List.nil_prefix, rfl⟩
  · split
    · exact ⟨[], List.nil_prefix, rfl⟩
    · split
      · exact ⟨[], List.nil_prefix, rfl⟩
      · rename_i gcm _
        obtain ⟨ws, hpre, h⟩ := encLoop_sealed_prefix env gcm reads 0
          { w := _, chunkIndex := 0, nonce := List.replicate NonceSize 0, sealed := [] }
          NonceOK_init rfl
        exact ⟨ws, hpre, by simpa using h⟩

/-! ## Prefixes of an encoded stream -/

theorem decLoop_short (env : Env) (gcm : Bytes) (fuel : Nat) (r : Bytes) (s : DecState)
    (res : DecResult) (hr : r.length < 4) (h : decLoop env gcm (fuel + 1) r s = some res) :
    res.w = s.w := by
  obtain ⟨e, he, hrd⟩ := ReadFull_short hr
  rw [decLoop, hrd] at h
  rcases he with he | he
  · subst he
    simp only [Option.some.injEq] at h
    subst h
    rfl
  · subst he
    simp only [Option.some.injEq] at h
    subst h
    rfl

theorem decLoop_short_payload (env : Env) (gcm : Bytes) (fuel L : Nat) (tail : Bytes)
    (s : DecState) (res : DecResult) (hL : L < 2 ^ 32) (ht : tail.length < L)
    (h : decLoop env gcm (fuel + 1) (PutUint32 L ++ tail) s = some res) :
    res.w = s.w := by
  obtain ⟨e, _, hrd⟩ := ReadFull_short ht
  rw [decLoop_header env gcm fuel L tail s hL, hrd] at h
  split at h
  · simp only [Option.some.injEq] at h; subst h; rfl
  · split at h
    · simp only [Option.some.injEq] at h; subst h; rfl
    · simp only [Option.some.injEq] at h; subst h; rfl

theorem take_flatten_prefix (l : List Bytes) (k : Nat) : (l.take k).flatten <+: l.flatten := by
  conv_rhs => rw [← List.take_append_drop k l, List.flatten_append]
  exact List.prefix_append _ _

/-- The decoder on the first `n` bytes of a run of chunks that `Open` accepts followed by the
terminator, with a sink that takes every write: whatever the outcome, the sink has received
the plaintexts of the first `k` chunks, whole, for some `k`. -/
theorem decLoop_prefix (env : Env) (gcm : Bytes) :
    ∀ (cs : List Bytes) (n i fuel : Nat) (s : DecState) (res : DecResult) (ps : List Bytes),
      NonceOK s.nonce → s.chunkIndex = uint64 i → s.w.faults = [] →
      (∀ c ∈ cs, ChunkOK c) → openFrom env gcm i cs = some ps →
      decLoop env gcm fuel ((frames cs ++ terminator).take n) s = some res →
      ∃ k, k ≤ ps.length ∧ res.w.data = s.w.data ++ (ps.take k).flatten := by
  intro cs
  induction cs with
  | nil =>
    intro n i fuel s res ps _ _ _ _ _ h
    cases fuel with
    | zero => simp [decLoop] at h
    | succ fuel =>
      refine ⟨0, Nat.zero_le _, ?_⟩
      simp only [frames, List.nil_append] at h
      by_cases hn : 4 ≤ n
      · have ht : terminator.take n = terminator ++ [] := by
          rw [List.append_nil]
          exact List.take_of_length_le hn
        rw [ht, decLoop_terminator] at h
        simp only [Option.some.injEq] at h
        subst h
        simp
      · have hshort : (terminator.take n).length < 4 := by
          rw [List.length_take]
          omega
        rw [decLoop_short env gcm fuel _ s res hshort h]
        simp
  | cons c cs ih =>
    intro n i fuel s res ps hn hi hw hcs hop h
    cases fuel with
    | zero => simp [decLoop] at h
    | succ fuel =>
      have hc : ChunkOK c := hcs c (List.mem_cons_self _ _)
      have hL : c.length < 2 ^ 32 := by
        have := hc.2
        unfold MaxChunkSize ChunkSize at this
        omega
      have hnz : ¬ c.length = 0 := by have := hc.1; omega
      have hmax : ¬ MaxChunkSize < c.length := by have := hc.2; omega
      have hfr : frames (c :: cs) ++ terminator
          = PutUint32 c.length ++ (c ++ (frames cs ++ terminator)) := by
        simp [frames, frame, List.append_assoc]
      rw [hfr] at h
      by_cases h4 : n < 4
      · refine ⟨0, Nat.zero_le _, ?_⟩
        have hshort : ((PutUint32 c.length ++ (c ++ (frames cs ++ terminator))).take n).length
            < 4 := by
          rw [List.length_take]
          omega
        rw [decLoop_short env gcm fuel _ s res hshort h]
        simp
      · have h41 : (PutUint32 c.length ++ (c ++ (frames cs ++ terminator))).take n
            = PutUint32 c.length ++ (c ++ (frames cs ++ terminator)).take (n - 4) := by
          rw [List.take_append_eq_append_take, PutUint32_length,
            List.take_of_length_le (by rw [PutUint32_length]; omega)]
        rw [h41] at h
        by_cases hfull : n - 4 < c.length
        · refine ⟨0, Nat.zero_le _, ?_⟩
          have hshort : ((c ++ (frames cs ++ terminator)).take (n - 4)).length < c.length := by
            rw [List.length_take]
            omega
          rw [decLoop_short_payload env gcm fuel c.length _ s res hL hshort h]
          simp
        · have h42 : (c ++ (frames cs ++ terminator)).take (n - 4)
              = c ++ (frames cs ++ terminator).take (n - 4 - c.length) := by
            rw [List.take_append_eq_append_take, List.take_of_length_le (by omega)]
          have hnonce : putNonce s.nonce s.chunkIndex = Nonce i := by
            rw [putNonce_eq hn, hi, Nonce_uint64]
          rw [h42, decLoop_header env gcm _ _ _ s hL, if_neg hnz, if_neg hmax,
            ReadFull_append] at h
          simp only [openFrom] at hop
          cases hopen : env.Open gcm (Nonce i) c with
          | none => rw [hopen] at hop; simp at hop
          | some p =>
            rw [hopen] at hop
            cases hrest : openFrom env gcm (i + 1) cs with
            | none => rw [hrest] at hop; simp at hop
            | some ps1 =>
              rw [hrest] at hop
              simp only [Option.some.injEq] at hop
              subst hop
              simp only [hnonce, hopen, Write_nofault _ _ hw] at h
              obtain ⟨k, hk, hdata⟩ := ih (n - 4 - c.length) (i + 1) fuel _ res ps1
                (NonceOK_Nonce i) (by simp only [hi, uint64_succ]) rfl
                (fun c1 h1 => hcs c1 (List.mem_cons_of_mem _ h1)) hrest h
              refine ⟨k + 1, by simp only [List.length_cons]; omega, ?_⟩
              rw [hdata]
              simp [List.append_assoc]

/-! ## `ensurePipExtension` -/

theorem HasSuffix_append (a b : Bytes) : HasSuffix (a ++ b) b = true := by
  simp [HasSuffix]

theorem asciiLower_pipExt (s : Bytes) : asciiLower (s ++ pipExt) = asciiLower s ++ pipExt := by
  unfold asciiLower
  rw [List.map_append]
  congr 1

theorem bareEnv_OpenSeal : OpenSeal bareEnv := by
  intro g n p
  simp only [bareEnv]
  by_cases h1 : p = [1]
  · simp [h1]
  · by_cases h0 : p = []
    · simp [h0]
    · simp [h1, h0]

/-! ## The claims -/

/-- C1 (round trip), amended. For every plaintext, password, master salt and 16-byte file
salt, and for every way the source hands the plaintext over in reads of at most `ChunkSize`
bytes: when `EncryptStream` returns `nil`, `DecryptStream` on the bytes it wrote, with the same
password and master salt and a sink that takes every write, returns `nil`, has read all of them
and has written exactly the plaintext. Assumed of the cipher: `Open` undoes `Seal` under the
same key and nonce, and `Seal` returns the plaintext length plus the 16 bytes of the GCM tag. -/
theorem round_trip (env : Env) (reads : List ReadResult) (w sink : Writer)
    (password masterSalt fileSalt : Bytes)
    (hopen : OpenSeal env) (hlen : SealLength env) (hfit : ReadsFit reads)
    (hsalt : fileSalt.length = SaltSize) (hsink : sink.faults = [])
    (hok : (EncryptStream env reads w password masterSalt (.ok fileSalt)).err = none) :
    ∃ res,
      DecryptStream env
          ((EncryptStream env reads w password masterSalt (.ok fileSalt)).w.data.drop
            w.data.length) sink password masterSalt = some res ∧
        res.err = none ∧ res.w.data = sink.data ++ delivered reads ∧ res.rest = [] := by
  obtain ⟨gcm, hkey⟩ := EncryptStream_ok_key hok
  have henc := (EncryptStream_ok hkey hok).1
  have hcs : ∀ c ∈ sealFrom env gcm 0 (windows reads), ChunkOK c := by
    intro c hc
    have := sealed_windows_length hlen hfit hc
    unfold ChunkOK MaxChunkSize
    omega
  obtain ⟨nonce1, fuel, _, hdec⟩ := DecryptStream_frames password masterSalt
    terminator hsalt hkey hsink hcs
    (openFrom_sealFrom hopen gcm 0 (windows reads))
  have hwritten : (EncryptStream env reads w password masterSalt (.ok fileSalt)).w.data.drop
      w.data.length = fileSalt ++ (frames (sealFrom env gcm 0 (windows reads)) ++ terminator) := by
    rw [henc]
    simp [List.append_assoc]
  rw [hwritten, hdec]
  have ht := decLoop_terminator env gcm fuel []
    { w := { data := sink.data ++ (windows reads).flatten, faults := [] },
      chunkIndex := uint64 (sealFrom env gcm 0 (windows reads)).length, nonce := nonce1,
      opened := callsFrom 0 (sealFrom env gcm 0 (windows reads)) }
  rw [List.append_nil] at ht
  rw [ht]
  exact ⟨_, rfl, rfl, by simp [windows_flatten], rfl⟩

theorem round_trip_witness :
    ∃ res,
      DecryptStream toyEnv
          ((EncryptStream toyEnv [⟨[1, 2, 3], none⟩, ⟨[], none⟩, ⟨[4], some Error.EOF⟩] emptySink
            [9] [8] (.ok (List.replicate 16 7))).w.data.drop emptySink.data.length)
          emptySink [9] [8] = some res ∧
        res.err = none ∧
        res.w.data
          = emptySink.data ++ delivered [⟨[1, 2, 3], none⟩, ⟨[], none⟩, ⟨[4], some Error.EOF⟩] ∧
        res.rest = [] :=
  round_trip toyEnv [⟨[1, 2, 3], none⟩, ⟨[], none⟩, ⟨[4], some Error.EOF⟩] emptySink emptySink
    [9] [8] (List.replicate 16 7) toyEnv_OpenSeal toyEnv_SealLength
    (by simp [ReadsFit, ChunkSize]) (by decide) rfl (by decide)

/-- C1, as stated, fails: that `Open` undoes `Seal` is not enough. With a cipher whose `Open`
undoes `Seal` but whose sealed bytes of the plaintext `[1]` are empty, `EncryptStream` on the
one-byte plaintext `[1]` returns `nil` and writes the salt, a data chunk of declared length 0
and the terminator; `DecryptStream` on those bytes reads that chunk as the terminator, returns
`nil` and writes nothing, not the plaintext. -/
theorem round_trip_needs_tag :
    OpenSeal bareEnv ∧
    (EncryptStream bareEnv [⟨[1], none⟩] emptySink [9] [8] (.ok (List.replicate 16 7))).err
      = none ∧
    (EncryptStream bareEnv [⟨[1], none⟩] emptySink [9] [8] (.ok (List.replicate 16 7))).w.data
      = List.replicate 16 7 ++ [0, 0, 0, 0] ++ [0, 0, 0, 0] ∧
    DecryptStream bareEnv (List.replicate 16 7 ++ [0, 0, 0, 0] ++ [0, 0, 0, 0]) emptySink [9] [8]
      = some { err := none, w := { data := [], faults := [] }, rest := [0, 0, 0, 0],
               opened := [] } ∧
    delivered [⟨[1], none⟩] = [1] ∧
    ([] : Bytes) ≠ delivered [⟨[1], none⟩] :=
  ⟨bareEnv_OpenSeal, by decide, by decide, by decide, by decide, by decide⟩

/-- C3 (wire format). For every source whose reads hand over at most `ChunkSize` bytes each,
a successful `EncryptStream` appends to the sink exactly: the file salt it generated, then for
each non-empty window `w_i` read before end of input, in order, the four-byte big-endian length
of `Seal(Nonce i, w_i)` followed by those sealed bytes, then the four zero bytes, and nothing
else. The four length bytes decode to the true length of the sealed bytes. -/
theorem wire_format (env : Env) (reads : List ReadResult) (w : Writer)
    (password masterSalt fileSalt gcm : Bytes)
    (hlen : SealLength env) (hfit : ReadsFit reads)
    (hkey : setupGCM env (env.DeriveKey password masterSalt) fileSalt = .ok gcm)
    (hok : (EncryptStream env reads w password masterSalt (.ok fileSalt)).err = none) :
    (EncryptStream env reads w password masterSalt (.ok fileSalt)).w.data
        = w.data ++ fileSalt ++ frames (sealFrom env gcm 0 (windows reads)) ++ terminator ∧
      (∀ c ∈ sealFrom env gcm 0 (windows reads), Uint32 (PutUint32 c.length) = c.length) ∧
      (sealFrom env gcm 0 (windows reads)).length = (windows reads).length := by
  refine ⟨(EncryptStream_ok hkey hok).1, ?_, sealFrom_length env gcm 0 _⟩
  intro c hc
  have := sealed_windows_length hlen hfit hc
  apply Uint32_PutUint32
  unfold ChunkSize at this
  omega

theorem wire_format_witness :
    (EncryptStream toyEnv [⟨[1, 2, 3], none⟩, ⟨[4], some Error.EOF⟩] emptySink [9] [8]
        (.ok (List.replicate 16 7))).w.data
      = emptySink.data ++ List.replicate 16 7 ++
          frames (sealFrom toyEnv [9, 8, 7, 7, 7, 7, 7, 7, 7, 7, 7, 7, 7, 7, 7, 7, 7, 7] 0
            (windows [⟨[1, 2, 3], none⟩, ⟨[4], some Error.EOF⟩])) ++ terminator :=
  (wire_format toyEnv [⟨[1, 2, 3], none⟩, ⟨[4], some Error.EOF⟩] emptySink [9] [8]
    (List.replicate 16 7) [9, 8, 7, 7, 7, 7, 7, 7, 7, 7, 7, 7, 7, 7, 7, 7, 7, 7]
    toyEnv_SealLength (by simp [ReadsFit, ChunkSize]) rfl (by decide)).1

/-- C6 (empty input). For every password and master salt and every 16-byte file salt, a
successful `EncryptStream` on a source that hands over no byte appends exactly 20 bytes to the
sink, the file salt followed by the four zero bytes; `DecryptStream` on those 20 bytes returns
`nil`, makes no call to `Open` and leaves the sink as it was. -/
theorem empty_input (env : Env) (reads : List ReadResult) (w sink : Writer)
    (password masterSalt fileSalt : Bytes)
    (hempty : delivered reads = []) (hsalt : fileSalt.length = SaltSize)
    (hok : (EncryptStream env reads w password masterSalt (.ok fileSalt)).err = none) :
    (EncryptStream env reads w password masterSalt (.ok fileSalt)).w.data
        = w.data ++ (fileSalt ++ terminator) ∧
      (fileSalt ++ terminator).length = 20 ∧
      DecryptStream env (fileSalt ++ terminator) sink password masterSalt
        = some { err := none, w := sink, rest := [], opened := [] } := by
  obtain ⟨gcm, hkey⟩ := EncryptStream_ok_key hok
  have henc := (EncryptStream_ok hkey hok).1
  rw [windows_eq_nil hempty] at henc
  refine ⟨by rw [henc]; simp [sealFrom, frames], ?_, ?_⟩
  · rw [List.length_append, hsalt]; rfl
  · unfold DecryptStream
    have hr : ReadFull (fileSalt ++ terminator) SaltSize = (.ok fileSalt, terminator) := by
      rw [← hsalt]; exact ReadFull_append _ _
    simp only [hr, hkey]
    have ht := decLoop_terminator env gcm terminator.length []
      { w := sink, chunkIndex := 0, nonce := List.replicate NonceSize 0, opened := [] }
    rw [List.append_nil] at ht
    exact ht

theorem empty_input_witness :
    (EncryptStream toyEnv [⟨[], none⟩] emptySink [9] [8] (.ok (List.replicate 16 7))).w.data
        = emptySink.data ++ (List.replicate 16 7 ++ terminator) ∧
      (List.replicate 16 (7 : UInt8) ++ terminator).length = 20 ∧
      DecryptStream toyEnv (List.replicate 16 7 ++ terminator) emptySink [9] [8]
        = some { err := none, w := emptySink, rest := [], opened := [] } :=
  empty_input toyEnv [⟨[], none⟩] emptySink emptySink [9] [8] (List.replicate 16 7)
    rfl rfl (by decide)

/-- C2 (bound on the declared length). Let the source hold a 16-byte salt, then chunks that
`Open` accepts, then the four bytes of a length `L` with `65792 < L < 2^32`, then any bytes
`tail`, and let the sink take every write. Then `DecryptStream` returns the error
`chunk size too large`, has read nothing of `tail`, has made no call to `Open` for that frame
and has written nothing beyond the plaintexts of the chunks before it. If instead
`1 ≤ L ≤ 65792`, the frame passes the size check: the run either reports a short read
(fewer than `L` bytes in `tail`) or calls `Open` on the first `L` bytes of `tail`. -/
theorem dos_bound (env : Env) (password masterSalt fileSalt gcm : Bytes) (cs ps : List Bytes)
    (L : Nat) (tail : Bytes) (w : Writer)
    (hsalt : fileSalt.length = SaltSize)
    (hkey : setupGCM env (env.DeriveKey password masterSalt) fileSalt = .ok gcm)
    (hw : w.faults = []) (hcs : ∀ c ∈ cs, ChunkOK c) (hop : openFrom env gcm 0 cs = some ps)
    (hL : L < 2 ^ 32) :
    (65536 + 256 < L →
      DecryptStream env (fileSalt ++ (frames cs ++ (PutUint32 L ++ tail))) w password masterSalt
        = some { err := some Error.chunkTooLarge,
                 w := { data := w.data ++ ps.flatten, faults := [] },
                 rest := tail, opened := callsFrom 0 cs }) ∧
    (1 ≤ L → L ≤ 65536 + 256 →
      ∃ res,
        DecryptStream env (fileSalt ++ (frames cs ++ (PutUint32 L ++ tail))) w password masterSalt
          = some res ∧
        ((tail.length < L ∧ res.opened = callsFrom 0 cs ∧
            (res.err = some Error.EOF ∨ res.err = some Error.ErrUnexpectedEOF)) ∨
         (L ≤ tail.length ∧
            (callsFrom 0 cs ++ [{ nonce := Nonce cs.length, input := tail.take L }])
              <+: res.opened))) := by
  obtain ⟨nonce1, fuel, hn1, hdec⟩ := DecryptStream_frames password masterSalt
    (PutUint32 L ++ tail) hsalt hkey hw hcs hop
  constructor
  · intro hbig
    have h0 : ¬ L = 0 := by omega
    have h1 : MaxChunkSize < L := by unfold MaxChunkSize ChunkSize; omega
    rw [hdec, decLoop_header env gcm fuel L tail _ hL, if_neg h0, if_pos h1]
  · intro hpos hsmall
    have h0 : ¬ L = 0 := by omega
    have h1 : ¬ MaxChunkSize < L := by unfold MaxChunkSize ChunkSize; omega
    obtain ⟨res, hres⟩ := DecryptStream_returns env
      (fileSalt ++ (frames cs ++ (PutUint32 L ++ tail))) w password masterSalt
    refine ⟨res, hres, ?_⟩
    rw [hdec, decLoop_header env gcm fuel L tail _ hL, if_neg h0, if_neg h1] at hres
    have hnonce : putNonce nonce1 (uint64 cs.length) = Nonce cs.length := by
      rw [putNonce_eq hn1, Nonce_uint64]
    simp only [hnonce] at hres
    cases hrd : ReadFull tail L with
    | mk x r2 =>
      rw [hrd] at hres
      cases x with
      | error e =>
        simp only [Option.some.injEq] at hres
        subst hres
        obtain ⟨hlt, _, he⟩ := ReadFull_error hrd
        left
        refine ⟨hlt, rfl, ?_⟩
        rcases he with ⟨_, he⟩ | ⟨_, he⟩
        · left; rw [he]
        · right; rw [he]
      | ok c =>
        obtain ⟨htail, hc⟩ := ReadFull_ok hrd
        have hle : L ≤ tail.length := by rw [htail, List.length_append]; omega
        have htake : tail.take L = c := by rw [htail, ← hc]; simp
        right
        refine ⟨hle, ?_⟩
        rw [htake]
        simp only [] at hres
        split at hres
        · simp only [Option.some.injEq] at hres; subst hres; exact List.prefix_refl _
        · split at hres
          · simp only [Option.some.injEq] at hres; subst hres; exact List.prefix_refl _
          · exact decLoop_opened_prefix env gcm _ _ _ _ hres

theorem dos_bound_witness :
    DecryptStream toyEnv
        (List.replicate 16 0 ++ (frames [] ++ (PutUint32 (100 * 1024 * 1024) ++ [])))
        emptySink [9] [8]
      = some { err := some Error.chunkTooLarge,
               w := { data := emptySink.data ++ ([] : List Bytes).flatten, faults := [] },
               rest := [], opened := callsFrom 0 [] } ∧
    ∃ res,
      DecryptStream toyEnv (List.replicate 16 0 ++ (frames [] ++ (PutUint32 17 ++ [1, 2])))
          emptySink [9] [8] = some res ∧
        ((([1, 2] : Bytes).length < 17 ∧ res.opened = callsFrom 0 [] ∧
            (res.err = some Error.EOF ∨ res.err = some Error.ErrUnexpectedEOF)) ∨
         (17 ≤ ([1, 2] : Bytes).length ∧
            (callsFrom 0 [] ++
              [{ nonce := Nonce ([] : List Bytes).length, input := ([1, 2] : Bytes).take 17 }])
              <+: res.opened)) :=
  ⟨(dos_bound toyEnv [9] [8] (List.replicate 16 0)
      [9, 8, 0, 0, 0, 0, 0, 0, 0, 0, 0, 0, 0, 0, 0, 0, 0, 0] [] [] (100 * 1024 * 1024) []
      emptySink rfl rfl rfl (by simp) rfl (by norm_num)).1 (by norm_num),
    (dos_bound toyEnv [9] [8] (List.replicate 16 0)
      [9, 8, 0, 0, 0, 0, 0, 0, 0, 0, 0, 0, 0, 0, 0, 0, 0, 0] [] [] 17 [1, 2]
      emptySink rfl rfl rfl (by simp) rfl (by norm_num)).2 (by norm_num) (by norm_num)⟩

/-- C4 (nonce uniqueness), amended. Within one `EncryptStream` call the nonce passed to `Seal`
for the chunk at position `j` is `Nonce j`, and for two different positions below `2^64` the
nonces are different. (`chunkIndex` is a `uint64`: it is the position modulo `2^64`.) -/
theorem nonce_unique_below_wrap (env : Env) (reads : List ReadResult) (w : Writer)
    (password masterSalt : Bytes) (salt : Except Error Bytes) (j k : Nat) (cj ck : Call)
    (hj : (EncryptStream env reads w password masterSalt salt).sealed[j]? = some cj)
    (hk : (EncryptStream env reads w password masterSalt salt).sealed[k]? = some ck)
    (hjk : j ≠ k) (hj64 : j < 2 ^ 64) (hk64 : k < 2 ^ 64) :
    cj.nonce ≠ ck.nonce := by
  obtain ⟨ws, hws⟩ := EncryptStream_sealed env reads w password masterSalt salt
  rw [hws] at hj hk
  have h1 := (callsFrom_getElem? 0 ws j cj hj).1
  have h2 := (callsFrom_getElem? 0 ws k ck hk).1
  rw [h1, h2]
  intro h
  have := Nonce_inj h
  omega

theorem nonce_unique_below_wrap_witness :
    (EncryptStream toyEnv [⟨[1, 2, 3], none⟩, ⟨[4], some Error.EOF⟩] emptySink [9] [8]
        (.ok (List.replicate 16 7))).sealed[0]?
      = some ⟨[0, 0, 0, 0, 0, 0, 0, 0, 0, 0, 0, 0], [1, 2, 3]⟩ ∧
    (EncryptStream toyEnv [⟨[1, 2, 3], none⟩, ⟨[4], some Error.EOF⟩] emptySink [9] [8]
        (.ok (List.replicate 16 7))).sealed[1]?
      = some ⟨[0, 0, 0, 0, 0, 0, 0, 0, 0, 0, 0, 1], [4]⟩ ∧
    (⟨[0, 0, 0, 0, 0, 0, 0, 0, 0, 0, 0, 0], [1, 2, 3]⟩ : Call).nonce
      ≠ (⟨[0, 0, 0, 0, 0, 0, 0, 0, 0, 0, 0, 1], [4]⟩ : Call).nonce :=
  ⟨by decide, by decide,
    nonce_unique_below_wrap toyEnv [⟨[1, 2, 3], none⟩, ⟨[4], some Error.EOF⟩] emptySink [9] [8]
      (.ok (List.replicate 16 7)) 0 1 ⟨[0, 0, 0, 0, 0, 0, 0, 0, 0, 0, 0, 0], [1, 2, 3]⟩
      ⟨[0, 0, 0, 0, 0, 0, 0, 0, 0, 0, 0, 1], [4]⟩ (by decide) (by decide) (by decide)
      (by norm_num) (by norm_num)⟩

/-- C4, as stated, fails: on a source that hands over `2^64 + 1` one-byte reads, the chunks at
positions `0` and `2^64` are sealed with the same nonce. -/
theorem nonce_reused_after_wrap :
    ∃ cj ck : Call,
      (EncryptStream toyEnv (List.replicate (2 ^ 64 + 1) { data := [0], err := none }) emptySink
          [] [] (.ok (List.replicate 16 0))).sealed[0]? = some cj ∧
      (EncryptStream toyEnv (List.replicate (2 ^ 64 + 1) { data := [0], err := none }) emptySink
          [] [] (.ok (List.replicate 16 0))).sealed[2 ^ 64]? = some ck ∧
      cj.nonce = ck.nonce := by
  have hr : ∀ r ∈ List.replicate (2 ^ 64 + 1) ({ data := [0], err := none } : ReadResult),
      r.err = none ∨ r.err = some Error.EOF := by
    intro r h
    rw [(List.mem_replicate.mp h).2]
    exact Or.inl rfl
  have hkey : setupGCM toyEnv (toyEnv.DeriveKey [] []) (List.replicate 16 0)
      = .ok (List.replicate 16 0) := rfl
  have hlog := (EncryptStream_ok hkey (EncryptStream_no_fault (w := emptySink) hkey rfl hr)).2
  rw [hlog, windows_replicate _ _ (by decide)]
  have h0 : 0 < (List.replicate (2 ^ 64 + 1) ([0] : Bytes)).length := by
    rw [List.length_replicate]; omega
  have h1 : 2 ^ 64 < (List.replicate (2 ^ 64 + 1) ([0] : Bytes)).length := by
    rw [List.length_replicate]; omega
  refine ⟨_, _, callsFrom_getElem?_lt 0 _ 0 h0, callsFrom_getElem?_lt 0 _ (2 ^ 64) h1, ?_⟩
  show Nonce (0 + 0) = Nonce (0 + 2 ^ 64)
  rw [← Nonce_uint64 (0 + 2 ^ 64)]
  rfl

/-- C5 (nonce layout). For every chunk position `k`, the nonce `EncryptStream` passes to `Seal`
for chunk `k` and the nonce `DecryptStream` passes to `Open` for frame `k` are the same value
`Nonce k`: twelve bytes, the first four zero, the last eight the big-endian base-256 digits of
`k` (of its low 64 bits). -/
theorem nonce_layout (env : Env) (reads : List ReadResult) (w sink : Writer) (r : Bytes)
    (password masterSalt : Bytes) (salt : Except Error Bytes) (k : Nat) :
    (∀ c, (EncryptStream env reads w password masterSalt salt).sealed[k]? = some c →
        c.nonce = Nonce k) ∧
    (∀ res c, DecryptStream env r sink password masterSalt = some res →
        res.opened[k]? = some c → c.nonce = Nonce k) ∧
    (Nonce k).length = 12 ∧ (Nonce k).take 4 = [0, 0, 0, 0] ∧
    ((Nonce k).drop 4).map UInt8.toNat
      = [k / 2 ^ 56 % 256, k / 2 ^ 48 % 256, k / 2 ^ 40 % 256, k / 2 ^ 32 % 256,
         k / 2 ^ 24 % 256, k / 2 ^ 16 % 256, k / 2 ^ 8 % 256, k % 256] := by
  refine ⟨?_, ?_, rfl, rfl, ?_⟩
  · intro c hc
    obtain ⟨ws, hws⟩ := EncryptStream_sealed env reads w password masterSalt salt
    rw [hws] at hc
    simpa using (callsFrom_getElem? 0 ws k c hc).1
  · intro res c hres hc
    obtain ⟨cs, hcs⟩ := DecryptStream_opened hres
    rw [hcs] at hc
    simpa using (callsFrom_getElem? 0 cs k c hc).1
  · show (PutUint64 k).map UInt8.toNat = _
    simp [PutUint64, toNat_ofNat_byte, Nat.shiftRight_eq_div_pow]

theorem nonce_layout_witness :
    (EncryptStream toyEnv [⟨[1, 2, 3], none⟩, ⟨[4], some Error.EOF⟩] emptySink [9] [8]
        (.ok (List.replicate 16 7))).sealed[1]?
      = some ⟨[0, 0, 0, 0, 0, 0, 0, 0, 0, 0, 0, 1], [4]⟩ ∧
    (⟨[0, 0, 0, 0, 0, 0, 0, 0, 0, 0, 0, 1], [4]⟩ : Call).nonce = Nonce 1 ∧
    DecryptStream toyEnv
        (List.replicate 16 7 ++
          [0, 0, 0, 19, 1, 2, 3, 1, 1, 1, 1, 1, 1, 1, 1, 1, 1, 1, 1, 1, 1, 1, 1,
           0, 0, 0, 17, 4, 2, 2, 2, 2, 2, 2, 2, 2, 2, 2, 2, 2, 2, 2, 2, 2])
        emptySink [9] [8]
      = some { err := none, w := { data := [1, 2, 3, 4], faults := [] }, rest := [],
               opened := [⟨[0, 0, 0, 0, 0, 0, 0, 0, 0, 0, 0, 0],
                            [1, 2, 3, 1, 1, 1, 1, 1, 1, 1, 1, 1, 1, 1, 1, 1, 1, 1, 1]⟩,
                          ⟨[0, 0, 0, 0, 0, 0, 0, 0, 0, 0, 0, 1],
                            [4, 2, 2, 2, 2, 2, 2, 2, 2, 2, 2, 2, 2, 2, 2, 2, 2]⟩] } ∧
    (⟨[0, 0, 0, 0, 0, 0, 0, 0, 0, 0, 0, 1],
        [4, 2, 2, 2, 2, 2, 2, 2, 2, 2, 2, 2, 2, 2, 2, 2, 2]⟩ : Call).nonce = Nonce 1 :=
  ⟨by decide,
    (nonce_layout toyEnv [⟨[1, 2, 3], none⟩, ⟨[4], some Error.EOF⟩] emptySink emptySink [] [9] [8]
      (.ok (List.replicate 16 7)) 1).1 ⟨[0, 0, 0, 0, 0, 0, 0, 0, 0, 0, 0, 1], [4]⟩ (by decide),
    by decide,
    (nonce_layout toyEnv [] emptySink emptySink
      (List.replicate 16 7 ++
        [0, 0, 0, 19, 1, 2, 3, 1, 1, 1, 1, 1, 1, 1, 1, 1, 1, 1, 1, 1, 1, 1, 1,
         0, 0, 0, 17, 4, 2, 2, 2, 2, 2, 2, 2, 2, 2, 2, 2, 2, 2, 2, 2, 2])
      [9] [8] (.ok []) 1).2.1
      { err := none, w := { data := [1, 2, 3, 4], faults := [] }, rest := [],
        opened := [⟨[0, 0, 0, 0, 0, 0, 0, 0, 0, 0, 0, 0],
                     [1, 2, 3, 1, 1, 1, 1, 1, 1, 1, 1, 1, 1, 1, 1, 1, 1, 1, 1]⟩,
                   ⟨[0, 0, 0, 0, 0, 0, 0, 0, 0, 0, 0, 1],
                     [4, 2, 2, 2, 2, 2, 2, 2, 2, 2, 2, 2, 2, 2, 2, 2, 2]⟩] }
      ⟨[0, 0, 0, 0, 0, 0, 0, 0, 0, 0, 0, 1], [4, 2, 2, 2, 2, 2, 2, 2, 2, 2, 2, 2, 2, 2, 2, 2, 2]⟩
      (by decide) (by decide)⟩

/-- C7 (stream validity), amended. `DecryptStream` returns `nil` only if the bytes it read are
a 16-byte file salt, then zero or more well-formed chunks that `Open` accepted, and then either
the four zero bytes of the terminator or the end of the source right after the salt or after a
chunk. The sink then holds the plaintexts of those chunks. -/
theorem accepted_stream_shape (env : Env) (r : Bytes) (w : Writer) (password masterSalt : Bytes)
    (res : DecResult) (h : DecryptStream env r w password masterSalt = some res)
    (hok : res.err = none) :
    ∃ fileSalt gcm cs ps,
      fileSalt.length = SaltSize ∧
      setupGCM env (env.DeriveKey password masterSalt) fileSalt = .ok gcm ∧
      (∀ c ∈ cs, ChunkOK c) ∧ openFrom env gcm 0 cs = some ps ∧
      res.w.data = w.data ++ ps.flatten ∧
      (r = fileSalt ++ (frames cs ++ (terminator ++ res.rest)) ∨
        (r = fileSalt ++ frames cs ∧ res.rest = [])) := by
  unfold DecryptStream at h
  simp only [] at h
  split at h
  · simp only [Option.some.injEq] at h; subst h; simp at hok
  · rename_i fileSalt r1 hr
    obtain ⟨hr1, hlen⟩ := ReadFull_ok hr
    split at h
    · simp only [Option.some.injEq] at h; subst h; simp at hok
    · rename_i gcm hkey
      obtain ⟨cs, ps, hcs, hop, hdata, hshape⟩ :=
        decLoop_accept env gcm _ r1 0 _ res NonceOK_init rfl h hok
      refine ⟨fileSalt, gcm, cs, ps, hlen, hkey, hcs, hop, hdata, ?_⟩
      rcases hshape with h1 | ⟨h1, h2⟩
      · left; rw [hr1, h1]
      · right; exact ⟨by rw [hr1, h1], h2⟩

theorem accepted_stream_shape_witness :
    ∃ fileSalt gcm cs ps,
      fileSalt.length = SaltSize ∧
      setupGCM toyEnv (toyEnv.DeriveKey [9] [8]) fileSalt = .ok gcm ∧
      (∀ c ∈ cs, ChunkOK c) ∧ openFrom toyEnv gcm 0 cs = some ps ∧
      ([1, 2, 3] : Bytes) = emptySink.data ++ ps.flatten ∧
      (List.replicate 16 7 ++ [0, 0, 0, 19, 1, 2, 3, 1, 1, 1, 1, 1, 1, 1, 1, 1, 1, 1, 1, 1, 1, 1, 1,
            0, 0, 0, 0, 99]
          = fileSalt ++ (frames cs ++ (terminator ++ [99])) ∨
        (List.replicate 16 7 ++ [0, 0, 0, 19, 1, 2, 3, 1, 1, 1, 1, 1, 1, 1, 1, 1, 1, 1, 1, 1, 1, 1, 1,
            0, 0, 0, 0, 99]
          = fileSalt ++ frames cs ∧ ([99] : Bytes) = [])) :=
  accepted_stream_shape toyEnv
    (List.replicate 16 7 ++ [0, 0, 0, 19, 1, 2, 3, 1, 1, 1, 1, 1, 1, 1, 1, 1, 1, 1, 1, 1, 1, 1, 1,
      0, 0, 0, 0, 99])
    emptySink [9] [8]
    { err := none, w := { data := [1, 2, 3], faults := [] }, rest := [99],
      opened := [⟨[0, 0, 0, 0, 0, 0, 0, 0, 0, 0, 0, 0],
        [1, 2, 3, 1, 1, 1, 1, 1, 1, 1, 1, 1, 1, 1, 1, 1, 1, 1, 1]⟩] }
    (by decide) rfl

/-- C7, as stated, fails: a source that ends right after the 16-byte salt, or right after a data
chunk, holds no terminator and is accepted. -/
theorem accepted_without_terminator :
    DecryptStream toyEnv (List.replicate 16 0) emptySink [] []
        = some { err := none, w := emptySink, rest := [], opened := [] } ∧
      (¬ ∃ fileSalt cs rest, fileSalt.length = SaltSize ∧
          List.replicate 16 (0 : UInt8) = fileSalt ++ (frames cs ++ (terminator ++ rest))) ∧
      DecryptStream toyEnv
          (List.replicate 16 7 ++
            [0, 0, 0, 19, 1, 2, 3, 1, 1, 1, 1, 1, 1, 1, 1, 1, 1, 1, 1, 1, 1, 1, 1])
          emptySink [9] [8]
        = some { err := none, w := { data := [1, 2, 3], faults := [] }, rest := [],
                 opened := [⟨[0, 0, 0, 0, 0, 0, 0, 0, 0, 0, 0, 0],
                   [1, 2, 3, 1, 1, 1, 1, 1, 1, 1, 1, 1, 1, 1, 1, 1, 1, 1, 1]⟩] } := by
  refine ⟨by decide, ?_, by decide⟩
  rintro ⟨fileSalt, cs, rest, hlen, heq⟩
  have := congrArg List.length heq
  simp only [List.length_replicate, List.length_append, hlen, SaltSize, terminator,
    List.length_cons, List.length_nil] at this
  omega

/-- C9 (generic authentication error). For every source and sink and every frame position `k`:
if `Open` rejects the bytes of frame `k` (the `k`-th call of the run), then `DecryptStream`
returns the one error `decryption failed or invalid password`, never `nil`, and stops there. -/
theorem auth_failure_generic (env : Env) (r : Bytes) (w : Writer)
    (password masterSalt gcm : Bytes) (res : DecResult) (k : Nat) (c : Call)
    (h : DecryptStream env r w password masterSalt = some res)
    (hkey : setupGCM env (env.DeriveKey password masterSalt) (r.take SaltSize) = .ok gcm)
    (hc : res.opened[k]? = some c) (hrej : env.Open gcm c.nonce c.input = none) :
    res.err = some Error.decryptionFailed ∧ k + 1 = res.opened.length := by
  unfold DecryptStream at h
  simp only [] at h
  split at h
  · simp only [Option.some.injEq] at h; subst h; simp at hc
  · rename_i fileSalt r1 hr
    obtain ⟨hr1, hlen⟩ := ReadFull_ok hr
    have hsalt : r.take SaltSize = fileSalt := by rw [hr1, ← hlen]; simp
    rw [hsalt] at hkey
    rw [hkey] at h
    exact decLoop_rejected env gcm _ r1 _ res (by simp) h k c hc hrej

theorem auth_failure_generic_witness :
    toyEnv.Open [9, 8, 7, 7, 7, 7, 7, 7, 7, 7, 7, 7, 7, 7, 7, 7, 7, 7]
        [0, 0, 0, 0, 0, 0, 0, 0, 0, 0, 0, 1] [4, 2, 2, 2, 2, 2, 2, 2, 2, 2, 2, 2, 2, 2, 2, 2, 3]
      = none ∧
    ∃ res,
      DecryptStream toyEnv
          (List.replicate 16 7 ++
            [0, 0, 0, 19, 1, 2, 3, 1, 1, 1, 1, 1, 1, 1, 1, 1, 1, 1, 1, 1, 1, 1, 1,
             0, 0, 0, 17, 4, 2, 2, 2, 2, 2, 2, 2, 2, 2, 2, 2, 2, 2, 2, 2, 3, 0, 0, 0, 0])
          emptySink [9] [8] = some res ∧
        res.err = some Error.decryptionFailed ∧ 1 + 1 = res.opened.length :=
  ⟨by decide,
    { err := some Error.decryptionFailed, w := { data := [1, 2, 3], faults := [] },
      rest := [0, 0, 0, 0],
      opened := [⟨[0, 0, 0, 0, 0, 0, 0, 0, 0, 0, 0, 0],
                   [1, 2, 3, 1, 1, 1, 1, 1, 1, 1, 1, 1, 1, 1, 1, 1, 1, 1, 1]⟩,
                 ⟨[0, 0, 0, 0, 0, 0, 0, 0, 0, 0, 0, 1],
                   [4, 2, 2, 2, 2, 2, 2, 2, 2, 2, 2, 2, 2, 2, 2, 2, 3]⟩] },
    by decide,
    auth_failure_generic toyEnv
      (List.replicate 16 7 ++
        [0, 0, 0, 19, 1, 2, 3, 1, 1, 1, 1, 1, 1, 1, 1, 1, 1, 1, 1, 1, 1, 1, 1,
         0, 0, 0, 17, 4, 2, 2, 2, 2, 2, 2, 2, 2, 2, 2, 2, 2, 2, 2, 2, 3, 0, 0, 0, 0])
      emptySink [9] [8] [9, 8, 7, 7, 7, 7, 7, 7, 7, 7, 7, 7, 7, 7, 7, 7, 7, 7]
      { err := some Error.decryptionFailed, w := { data := [1, 2, 3], faults := [] },
        rest := [0, 0, 0, 0],
        opened := [⟨[0, 0, 0, 0, 0, 0, 0, 0, 0, 0, 0, 0],
                     [1, 2, 3, 1, 1, 1, 1, 1, 1, 1, 1, 1, 1, 1, 1, 1, 1, 1, 1]⟩,
                   ⟨[0, 0, 0, 0, 0, 0, 0, 0, 0, 0, 0, 1],
                     [4, 2, 2, 2, 2, 2, 2, 2, 2, 2, 2, 2, 2, 2, 2, 2, 3]⟩] }
      1 ⟨[0, 0, 0, 0, 0, 0, 0, 0, 0, 0, 0, 1], [4, 2, 2, 2, 2, 2, 2, 2, 2, 2, 2, 2, 2, 2, 2, 2, 3]⟩
      (by decide) (by rfl) (by decide) (by decide)⟩

/-- C10 (no partial plaintext), amended. When `Open` rejects a chunk, `DecryptStream` returns
the authentication error with the sink holding exactly the plaintexts of the chunks before the
rejected one, all of which `Open` accepted; nothing of the rejected chunk or of the bytes after
it is written, and nothing at all when the first chunk is the rejected one. -/
theorem auth_failure_sink (env : Env) (password masterSalt fileSalt gcm : Bytes)
    (cs ps : List Bytes) (c tail : Bytes) (w : Writer)
    (hsalt : fileSalt.length = SaltSize)
    (hkey : setupGCM env (env.DeriveKey password masterSalt) fileSalt = .ok gcm)
    (hw : w.faults = []) (hcs : ∀ c1 ∈ cs, ChunkOK c1) (hop : openFrom env gcm 0 cs = some ps)
    (hc : ChunkOK c) (hrej : env.Open gcm (Nonce cs.length) c = none) :
    DecryptStream env (fileSalt ++ (frames cs ++ (frame c ++ tail))) w password masterSalt
      = some { err := some Error.decryptionFailed,
               w := { data := w.data ++ ps.flatten, faults := [] },
               rest := tail,
               opened := callsFrom 0 cs ++ [{ nonce := Nonce cs.length, input := c }] } := by
  obtain ⟨nonce1, fuel, hn1, hdec⟩ := DecryptStream_frames password masterSalt
    (frame c ++ tail) hsalt hkey hw hcs hop
  have hL : c.length < 2 ^ 32 := by
    have := hc.2
    unfold MaxChunkSize ChunkSize at this
    omega
  have h0 : ¬ c.length = 0 := by have := hc.1; omega
  have h1 : ¬ MaxChunkSize < c.length := by have := hc.2; omega
  have hnonce : putNonce nonce1 (uint64 cs.length) = Nonce cs.length := by
    rw [putNonce_eq hn1, Nonce_uint64]
  rw [hdec, frame, List.append_assoc, decLoop_header env gcm fuel c.length (c ++ tail) _ hL,
    if_neg h0, if_neg h1, ReadFull_append]
  simp only [hnonce, hrej]

theorem auth_failure_sink_witness :
    DecryptStream toyEnv
        (List.replicate 16 7 ++
          (frames [[1, 2, 3, 1, 1, 1, 1, 1, 1, 1, 1, 1, 1, 1, 1, 1, 1, 1, 1]] ++
            (frame [4, 2, 2, 2, 2, 2, 2, 2, 2, 2, 2, 2, 2, 2, 2, 2, 3] ++ [0, 0, 0, 0])))
        emptySink [9] [8]
      = some { err := some Error.decryptionFailed,
               w := { data := emptySink.data ++ [[1, 2, 3]].flatten, faults := [] },
               rest := [0, 0, 0, 0],
               opened := callsFrom 0 [[1, 2, 3, 1, 1, 1, 1, 1, 1, 1, 1, 1, 1, 1, 1, 1, 1, 1, 1]] ++
                 [{ nonce := Nonce 1,
                    input := [4, 2, 2, 2, 2, 2, 2, 2, 2, 2, 2, 2, 2, 2, 2, 2, 3] }] } :=
  auth_failure_sink toyEnv [9] [8] (List.replicate 16 7)
    [9, 8, 7, 7, 7, 7, 7, 7, 7, 7, 7, 7, 7, 7, 7, 7, 7, 7]
    [[1, 2, 3, 1, 1, 1, 1, 1, 1, 1, 1, 1, 1, 1, 1, 1, 1, 1, 1]] [[1, 2, 3]]
    [4, 2, 2, 2, 2, 2, 2, 2, 2, 2, 2, 2, 2, 2, 2, 2, 3] [0, 0, 0, 0] emptySink
    rfl rfl rfl (by simp [ChunkOK, MaxChunkSize, ChunkSize]) (by decide)
    (by simp [ChunkOK, MaxChunkSize, ChunkSize]) (by decide)

/-- C10, as stated, fails: with a first chunk that authenticates and a second one that does
not, the authentication error is returned after the plaintext of the first chunk has been
written to the sink. -/
theorem plaintext_written_before_auth_error :
    DecryptStream toyEnv
        (List.replicate 16 7 ++ [0, 0, 0, 19, 1, 2, 3, 1, 1, 1, 1, 1, 1, 1, 1, 1, 1, 1, 1, 1, 1, 1, 1,
          0, 0, 0, 17, 4, 2, 2, 2, 2, 2, 2, 2, 2, 2, 2, 2, 2, 2, 2, 2, 3, 0, 0, 0, 0])
        emptySink [9] [8]
      = some { err := some Error.decryptionFailed, w := { data := [1, 2, 3], faults := [] },
               rest := [0, 0, 0, 0],
               opened := [⟨[0, 0, 0, 0, 0, 0, 0, 0, 0, 0, 0, 0],
                            [1, 2, 3, 1, 1, 1, 1, 1, 1, 1, 1, 1, 1, 1, 1, 1, 1, 1, 1]⟩,
                          ⟨[0, 0, 0, 0, 0, 0, 0, 0, 0, 0, 0, 1],
                            [4, 2, 2, 2, 2, 2, 2, 2, 2, 2, 2, 2, 2, 2, 2, 2, 3]⟩] } ∧
      ([1, 2, 3] : Bytes) ≠ emptySink.data := by
  constructor <;> decide

/-- C8 (chunk boundary), amended. For a source that fills the 64 KiB buffer on every read
until fewer bytes remain, and every `N`: a successful `EncryptStream` on a plaintext of exactly
`N * 65536` bytes seals and writes exactly `N` data chunks before the terminator, and on a
plaintext of `N * 65536 + 1` bytes exactly `N + 1`. -/
theorem chunk_boundary (env : Env) (reads : List ReadResult) (w : Writer)
    (password masterSalt fileSalt gcm : Bytes) (N : Nat) (hfill : FillsBuffer reads)
    (hkey : setupGCM env (env.DeriveKey password masterSalt) fileSalt = .ok gcm)
    (hok : (EncryptStream env reads w password masterSalt (.ok fileSalt)).err = none) :
    ((delivered reads).length = N * 65536 →
      (EncryptStream env reads w password masterSalt (.ok fileSalt)).sealed.length = N ∧
      ∃ cs, cs.length = N ∧
        (EncryptStream env reads w password masterSalt (.ok fileSalt)).w.data
          = w.data ++ fileSalt ++ frames cs ++ terminator) ∧
    ((delivered reads).length = N * 65536 + 1 →
      (EncryptStream env reads w password masterSalt (.ok fileSalt)).sealed.length = N + 1 ∧
      ∃ cs, cs.length = N + 1 ∧
        (EncryptStream env reads w password masterSalt (.ok fileSalt)).w.data
          = w.data ++ fileSalt ++ frames cs ++ terminator) := by
  obtain ⟨hdata, hlog⟩ := EncryptStream_ok hkey hok
  have hcount := windows_count hfill
  constructor
  · intro hlen
    have hN : (windows reads).length = N := by rw [hcount, hlen]; omega
    exact ⟨by rw [hlog, callsFrom_length, hN],
      sealFrom env gcm 0 (windows reads), by rw [sealFrom_length, hN], hdata⟩
  · intro hlen
    have hN : (windows reads).length = N + 1 := by rw [hcount, hlen]; omega
    exact ⟨by rw [hlog, callsFrom_length, hN],
      sealFrom env gcm 0 (windows reads), by rw [sealFrom_length, hN], hdata⟩

theorem chunk_boundary_witness :
    ((delivered (List.replicate 1 { data := List.replicate 65536 0, err := none })).length
        = 1 * 65536 ∧
      (EncryptStream toyEnv (List.replicate 1 { data := List.replicate 65536 0, err := none })
        emptySink [9] [8] (.ok (List.replicate 16 7))).sealed.length = 1) ∧
    ((delivered [⟨[5], some Error.EOF⟩]).length = 0 * 65536 + 1 ∧
      (EncryptStream toyEnv [⟨[5], some Error.EOF⟩] emptySink [9] [8]
        (.ok (List.replicate 16 7))).sealed.length = 0 + 1) := by
  have hkey : setupGCM toyEnv (toyEnv.DeriveKey [9] [8]) (List.replicate 16 7)
      = .ok [9, 8, 7, 7, 7, 7, 7, 7, 7, 7, 7, 7, 7, 7, 7, 7, 7, 7] := rfl
  have hlen : (delivered (List.replicate 1
      ({ data := List.replicate 65536 0, err := none } : ReadResult))).length = 1 * 65536 := by
    rw [delivered_replicate, List.length_replicate]
  have hfill : FillsBuffer (List.replicate 1
      ({ data := List.replicate 65536 0, err := none } : ReadResult)) :=
    ⟨Or.inl rfl, Or.inl (List.length_replicate _ _), fun _ => trivial⟩
  have hok : (EncryptStream toyEnv
      (List.replicate 1 ({ data := List.replicate 65536 0, err := none } : ReadResult))
      emptySink [9] [8] (.ok (List.replicate 16 7))).err = none :=
    EncryptStream_no_fault hkey rfl (fun r h => by
      rw [(List.mem_replicate.mp h).2]
      exact Or.inl rfl)
  exact ⟨⟨hlen,
      ((chunk_boundary toyEnv _ emptySink [9] [8] (List.replicate 16 7) _ 1 hfill hkey hok).1
        hlen).1⟩,
    by decide,
    ((chunk_boundary toyEnv [⟨[5], some Error.EOF⟩] emptySink [9] [8] (List.replicate 16 7)
      [9, 8, 7, 7, 7, 7, 7, 7, 7, 7, 7, 7, 7, 7, 7, 7, 7, 7] 0
      (by simp [FillsBuffer, ChunkSize]) rfl (by decide)).2 (by decide)).1⟩

/-- C8, as stated, fails: a source that hands over a plaintext of exactly `1 * 65536` bytes in
two reads of 32768 bytes makes `EncryptStream` seal and write two data chunks, not one. -/
theorem short_reads_make_more_chunks :
    (delivered (List.replicate 2 { data := List.replicate 32768 0, err := none })).length
        = 1 * 65536 ∧
      (EncryptStream toyEnv (List.replicate 2 { data := List.replicate 32768 0, err := none })
        emptySink [] [] (.ok (List.replicate 16 0))).err = none ∧
      (EncryptStream toyEnv (List.replicate 2 { data := List.replicate 32768 0, err := none })
        emptySink [] [] (.ok (List.replicate 16 0))).sealed.length = 2 ∧
      ∃ c0 c1,
        (EncryptStream toyEnv (List.replicate 2 { data := List.replicate 32768 0, err := none })
          emptySink [] [] (.ok (List.replicate 16 0))).w.data
          = List.replicate 16 0 ++ frames [c0, c1] ++ terminator := by
  have hr : ∀ r ∈ List.replicate 2 ({ data := List.replicate 32768 0, err := none } : ReadResult),
      r.err = none ∨ r.err = some Error.EOF := by
    intro r h
    rw [(List.mem_replicate.mp h).2]
    exact Or.inl rfl
  have hkey : setupGCM toyEnv (toyEnv.DeriveKey [] []) (List.replicate 16 0)
      = .ok (List.replicate 16 0) := rfl
  have hok := EncryptStream_no_fault (w := emptySink) hkey rfl hr
  obtain ⟨hdata, hlog⟩ := EncryptStream_ok hkey hok
  have hp : 0 < (List.replicate 32768 (0 : UInt8)).length := by
    rw [List.length_replicate]; norm_num
  rw [windows_replicate 2 _ hp] at hdata hlog
  refine ⟨?_, hok, ?_, ?_⟩
  · rw [delivered_replicate, List.length_replicate]
  · rw [hlog, callsFrom_length, List.length_replicate]
  · exact ⟨_, _, hdata⟩

/-- C11 (truncation is an error). (a) A source with fewer than 16 bytes makes `DecryptStream`
return a short-read error with the sink untouched. (b) A source made of a 16-byte salt,
well-formed chunks and then an end inside a frame (1 to 3 bytes of a length prefix, or a
declared length `1 ≤ L ≤ 65792` with fewer than `L` bytes after it) makes `DecryptStream`
return an error, for every cipher and sink, and no call of `Open` is made for the
incomplete frame. (c) When the chunks before it authenticate and the sink takes every write,
that error is the short-read error and the sink holds the plaintexts of the complete
chunks and nothing else. -/
theorem truncation_error (env : Env) (w : Writer) (password masterSalt : Bytes) :
    (∀ r : Bytes, r.length < SaltSize →
      ∃ e, (e = Error.EOF ∨ e = Error.ErrUnexpectedEOF) ∧
        DecryptStream env r w password masterSalt
          = some { err := some e, w := w, rest := [], opened := [] }) ∧
    (∀ (fileSalt : Bytes) (cs : List Bytes) (x : Bytes),
      fileSalt.length = SaltSize → (∀ c ∈ cs, ChunkOK c) → EndsInsideFrame x →
      ∃ res, DecryptStream env (fileSalt ++ (frames cs ++ x)) w password masterSalt = some res ∧
        res.err ≠ none ∧ ∃ k, k ≤ cs.length ∧ res.opened = callsFrom 0 (cs.take k)) ∧
    (∀ (fileSalt gcm : Bytes) (cs ps : List Bytes) (x : Bytes),
      fileSalt.length = SaltSize →
      setupGCM env (env.DeriveKey password masterSalt) fileSalt = .ok gcm →
      w.faults = [] → (∀ c ∈ cs, ChunkOK c) → openFrom env gcm 0 cs = some ps →
      EndsInsideFrame x →
      ∃ e, (e = Error.EOF ∨ e = Error.ErrUnexpectedEOF) ∧
        DecryptStream env (fileSalt ++ (frames cs ++ x)) w password masterSalt
          = some { err := some e, w := { data := w.data ++ ps.flatten, faults := [] },
                   rest := [], opened := callsFrom 0 cs }) := by
  refine ⟨?_, ?_, ?_⟩
  · intro r hr
    obtain ⟨e, he, hrd⟩ := ReadFull_short hr
    refine ⟨e, he, ?_⟩
    unfold DecryptStream
    simp only [hrd]
  · intro fileSalt cs x hsalt hcs hx
    obtain ⟨res, hres⟩ := DecryptStream_returns env (fileSalt ++ (frames cs ++ x)) w
      password masterSalt
    refine ⟨res, hres, ?_⟩
    unfold DecryptStream at hres
    have hr : ReadFull (fileSalt ++ (frames cs ++ x)) SaltSize
        = (.ok fileSalt, frames cs ++ x) := by
      rw [← hsalt]; exact ReadFull_append _ _
    simp only [hr] at hres
    split at hres
    · simp only [Option.some.injEq] at hres
      subst hres
      exact ⟨by simp, 0, Nat.zero_le _, by simp [callsFrom]⟩
    · obtain ⟨herr, k, hk, hlog⟩ := decLoop_truncated env _ x hx cs _ 0 _ res NonceOK_init rfl
        hcs hres
      exact ⟨herr, k, hk, by simpa using hlog⟩
  · intro fileSalt gcm cs ps x hsalt hkey hw hcs hop hx
    obtain ⟨nonce1, fuel, _, hdec⟩ := DecryptStream_frames password masterSalt x hsalt hkey hw
      hcs hop
    obtain ⟨e, he, hstep⟩ := decLoop_inside_frame env gcm fuel x
      { w := { data := w.data ++ ps.flatten, faults := [] }, chunkIndex := uint64 cs.length,
        nonce := nonce1, opened := callsFrom 0 cs } hx
    exact ⟨e, he, by rw [hdec, hstep]⟩

theorem truncation_error_witness :
    (∃ e, (e = Error.EOF ∨ e = Error.ErrUnexpectedEOF) ∧
      DecryptStream toyEnv [1, 2, 3] emptySink [9] [8]
        = some { err := some e, w := emptySink, rest := [], opened := [] }) ∧
    (∃ res,
      DecryptStream toyEnv
          (List.replicate 16 7 ++
            (frames [[1, 2, 3, 1, 1, 1, 1, 1, 1, 1, 1, 1, 1, 1, 1, 1, 1, 1, 1]] ++ [0, 0]))
          emptySink [9] [8] = some res ∧
        res.err ≠ none ∧
        ∃ k, k ≤ [[1, 2, 3, 1, 1, 1, 1, 1, 1, 1, 1, 1, 1, 1, 1, 1, 1, 1, 1]].length ∧
          res.opened
            = callsFrom 0 ([[1, 2, 3, 1, 1, 1, 1, 1, 1, 1, 1, 1, 1, 1, 1, 1, 1, 1, 1]].take k)) ∧
    (∃ e, (e = Error.EOF ∨ e = Error.ErrUnexpectedEOF) ∧
      DecryptStream toyEnv
          (List.replicate 16 7 ++
            (frames [[1, 2, 3, 1, 1, 1, 1, 1, 1, 1, 1, 1, 1, 1, 1, 1, 1, 1, 1]] ++
              (PutUint32 17 ++ [4, 2])))
          emptySink [9] [8]
        = some { err := some e,
                 w := { data := emptySink.data ++ [[1, 2, 3]].flatten, faults := [] },
                 rest := [],
                 opened := callsFrom 0 [[1, 2, 3, 1, 1, 1, 1, 1, 1, 1, 1, 1, 1, 1, 1, 1, 1, 1, 1]] }) :=
  ⟨(truncation_error toyEnv emptySink [9] [8]).1 [1, 2, 3] (by decide),
    (truncation_error toyEnv emptySink [9] [8]).2.1 (List.replicate 16 7)
      [[1, 2, 3, 1, 1, 1, 1, 1, 1, 1, 1, 1, 1, 1, 1, 1, 1, 1, 1]] [0, 0] rfl
      (by simp [ChunkOK, MaxChunkSize, ChunkSize]) (Or.inl ⟨by decide, by decide⟩),
    (truncation_error toyEnv emptySink [9] [8]).2.2 (List.replicate 16 7)
      [9, 8, 7, 7, 7, 7, 7, 7, 7, 7, 7, 7, 7, 7, 7, 7, 7, 7]
      [[1, 2, 3, 1, 1, 1, 1, 1, 1, 1, 1, 1, 1, 1, 1, 1, 1, 1, 1]] [[1, 2, 3]]
      (PutUint32 17 ++ [4, 2]) rfl rfl rfl (by simp [ChunkOK, MaxChunkSize, ChunkSize])
      (by decide) (Or.inr ⟨17, [4, 2], rfl, by norm_num, by norm_num, by decide⟩)⟩

/-- C12 (salt uniqueness). For the same password, master salt and source, two successful
`EncryptStream` runs whose 16-byte file salts differ write different byte sequences: the
first 16 bytes each run writes are its file salt. -/
theorem salt_uniqueness (env : Env) (reads : List ReadResult) (w : Writer)
    (password masterSalt salt1 salt2 : Bytes)
    (h1 : salt1.length = SaltSize) (h2 : salt2.length = SaltSize) (hne : salt1 ≠ salt2)
    (hok1 : (EncryptStream env reads w password masterSalt (.ok salt1)).err = none)
    (hok2 : (EncryptStream env reads w password masterSalt (.ok salt2)).err = none) :
    ((EncryptStream env reads w password masterSalt (.ok salt1)).w.data.drop w.data.length).take 16
        = salt1 ∧
      ((EncryptStream env reads w password masterSalt (.ok salt2)).w.data.drop w.data.length).take 16
        = salt2 ∧
      (EncryptStream env reads w password masterSalt (.ok salt1)).w.data
        ≠ (EncryptStream env reads w password masterSalt (.ok salt2)).w.data := by
  obtain ⟨g1, hk1⟩ := EncryptStream_ok_key hok1
  obtain ⟨g2, hk2⟩ := EncryptStream_ok_key hok2
  have e1 := (EncryptStream_ok hk1 hok1).1
  have e2 := (EncryptStream_ok hk2 hok2).1
  have t1 : ((EncryptStream env reads w password masterSalt (.ok salt1)).w.data.drop
      w.data.length).take 16 = salt1 := by
    rw [e1]
    simp only [List.append_assoc, List.drop_left]
    rw [show 16 = salt1.length from h1.symm, List.take_left]
  have t2 : ((EncryptStream env reads w password masterSalt (.ok salt2)).w.data.drop
      w.data.length).take 16 = salt2 := by
    rw [e2]
    simp only [List.append_assoc, List.drop_left]
    rw [show 16 = salt2.length from h2.symm, List.take_left]
  refine ⟨t1, t2, ?_⟩
  intro heq
  rw [heq, t2] at t1
  exact hne t1.symm

theorem salt_uniqueness_witness :
    ((EncryptStream toyEnv [⟨[1, 2, 3], none⟩] emptySink [9] [8]
        (.ok (List.replicate 16 7))).w.data.drop emptySink.data.length).take 16
        = List.replicate 16 7 ∧
      ((EncryptStream toyEnv [⟨[1, 2, 3], none⟩] emptySink [9] [8]
        (.ok (List.replicate 16 5))).w.data.drop emptySink.data.length).take 16
        = List.replicate 16 5 ∧
      (EncryptStream toyEnv [⟨[1, 2, 3], none⟩] emptySink [9] [8]
          (.ok (List.replicate 16 7))).w.data
        ≠ (EncryptStream toyEnv [⟨[1, 2, 3], none⟩] emptySink [9] [8]
          (.ok (List.replicate 16 5))).w.data :=
  salt_uniqueness toyEnv [⟨[1, 2, 3], none⟩] emptySink [9] [8] (List.replicate 16 7)
    (List.replicate 16 5) rfl rfl (by decide) (by decide) (by decide)

/-- C13 (encrypt failure propagation), amended. (1) When a read fails with an error `e` other
than `io.EOF`, after reads that reported no error and with a sink that takes every write,
`EncryptStream` returns exactly `e`; the sink has received the salt, the data chunks of the
windows read before, the data chunk of the bytes the failing read itself handed over (if it
handed over any), and no terminator. (2) For every source and sink, a `Write` call that fails
with `e` is the last `Write` call `EncryptStream` makes, and `e` is what it returns. (3)
`EncryptStream` returns `nil`, which it does right after writing the terminator, only if the
source reported end of input. -/
theorem encrypt_failure_propagation (env : Env) (w : Writer) (password masterSalt : Bytes) :
    (∀ (fileSalt gcm : Bytes) (pre : List ReadResult) (d : Bytes) (e : Error)
        (post : List ReadResult),
      setupGCM env (env.DeriveKey password masterSalt) fileSalt = .ok gcm →
      w.faults = [] → (∀ r ∈ pre, r.err = none) → e ≠ Error.EOF →
      (EncryptStream env (pre ++ { data := d, err := some e } :: post) w password masterSalt
          (.ok fileSalt)).err = some e ∧
        (EncryptStream env (pre ++ { data := d, err := some e } :: post) w password masterSalt
          (.ok fileSalt)).w.data
          = w.data ++ fileSalt ++
              frames (sealFrom env gcm 0 (windows pre ++ (if 0 < d.length then [d] else [])))) ∧
    (∀ (reads : List ReadResult) (salt : Except Error Bytes),
      ∃ k, (EncryptStream env reads w password masterSalt salt).w.faults = w.faults.drop k ∧
        ∀ j n e, w.faults[j]? = some (some (n, e)) → j < k →
          j + 1 = k ∧ (EncryptStream env reads w password masterSalt salt).err = some e) ∧
    (∀ (reads : List ReadResult) (salt : Except Error Bytes),
      (EncryptStream env reads w password masterSalt salt).err = none → EOFReached reads) := by
  refine ⟨?_, ?_, ?_⟩
  · intro fileSalt gcm pre d e post hkey hw hpre he
    unfold EncryptStream
    simp only [hkey, Write_nofault _ _ hw]
    obtain ⟨h1, h2⟩ := encLoop_read_error env gcm d e post he pre 0
      { w := { data := w.data ++ fileSalt, faults := [] }, chunkIndex := 0,
        nonce := List.replicate NonceSize 0, sealed := [] } hpre rfl NonceOK_init rfl
    exact ⟨h1, h2⟩
  · intro reads salt
    exact EncryptStream_consumes env reads w password masterSalt salt
  · intro reads salt h
    unfold EncryptStream at h
    simp only [] at h
    split at h
    · simp at h
    · split at h
      · simp at h
      · split at h
        · simp at h
        · exact encLoop_ok_eof env _ reads _ h

theorem encrypt_failure_propagation_witness :
    ((EncryptStream toyEnv ([⟨[1, 2], none⟩] ++ { data := [], err := some (Error.other 7) } :: [])
          emptySink [9] [8] (.ok (List.replicate 16 7))).err = some (Error.other 7) ∧
      (EncryptStream toyEnv ([⟨[1, 2], none⟩] ++ { data := [], err := some (Error.other 7) } :: [])
          emptySink [9] [8] (.ok (List.replicate 16 7))).w.data
        = emptySink.data ++ List.replicate 16 7 ++
            frames (sealFrom toyEnv [9, 8, 7, 7, 7, 7, 7, 7, 7, 7, 7, 7, 7, 7, 7, 7, 7, 7] 0
              (windows [⟨[1, 2], none⟩] ++ (if 0 < ([] : Bytes).length then [[]] else [])))) ∧
    (({ data := [], faults := [none, some (2, Error.other 5)] } : Writer).faults[1]?
        = some (some (2, Error.other 5)) ∧
      (EncryptStream toyEnv [⟨[1, 2, 3], none⟩]
        { data := [], faults := [none, some (2, Error.other 5)] } [9] [8]
        (.ok (List.replicate 16 7))).w.faults = [] ∧
      (EncryptStream toyEnv [⟨[1, 2, 3], none⟩]
        { data := [], faults := [none, some (2, Error.other 5)] } [9] [8]
        (.ok (List.replicate 16 7))).err = some (Error.other 5)) ∧
    EOFReached [⟨[1, 2, 3], some Error.EOF⟩] := by
  refine ⟨?_, ?_, ?_⟩
  · exact (encrypt_failure_propagation toyEnv emptySink [9] [8]).1 (List.replicate 16 7)
      [9, 8, 7, 7, 7, 7, 7, 7, 7, 7, 7, 7, 7, 7, 7, 7, 7, 7] [⟨[1, 2], none⟩] []
      (Error.other 7) [] rfl rfl (by simp) (by decide)
  · refine ⟨by decide, by decide, ?_⟩
    obtain ⟨k, hk, hlast⟩ := (encrypt_failure_propagation toyEnv
      { data := [], faults := [none, some (2, Error.other 5)] } [9] [8]).2.1
      [⟨[1, 2, 3], none⟩] (.ok (List.replicate 16 7))
    have hk2 : 1 < k := by
      have h0 : (EncryptStream toyEnv [⟨[1, 2, 3], none⟩]
          { data := [], faults := [none, some (2, Error.other 5)] } [9] [8]
          (.ok (List.replicate 16 7))).w.faults = [] := by decide
      rw [h0] at hk
      have hlen := congrArg List.length hk
      simp only [List.length_nil, List.length_drop, List.length_cons] at hlen
      omega
    exact (hlast 1 2 (Error.other 5) (by decide) hk2).2
  · exact (encrypt_failure_propagation toyEnv emptySink [9] [8]).2.2
      [⟨[1, 2, 3], some Error.EOF⟩] (.ok (List.replicate 16 7)) (by decide)

/-- C13, as stated, fails: when the failing read hands over bytes together with its error,
`EncryptStream` seals them and writes their data chunk after that read has failed, and only
then returns the error. -/
theorem chunk_written_after_failed_read :
    (EncryptStream toyEnv [⟨[1, 2, 3], some (Error.other 7)⟩] emptySink [9] [8]
        (.ok (List.replicate 16 7))).err = some (Error.other 7) ∧
      (EncryptStream toyEnv [⟨[1, 2, 3], some (Error.other 7)⟩] emptySink [9] [8]
        (.ok (List.replicate 16 7))).w.data
        = List.replicate 16 7 ++
            [0, 0, 0, 19, 1, 2, 3, 1, 1, 1, 1, 1, 1, 1, 1, 1, 1, 1, 1, 1, 1, 1, 1] := by
  refine ⟨by decide, by decide⟩

/-- C14 (trailing bytes are ignored). Let `s` be a 16-byte salt, well-formed chunks, the
terminator and any bytes `rest0`. For every byte sequence `t`, every cipher and every sink,
`DecryptStream` on `s ++ t` returns the same error value, makes the same `Open` calls and
leaves the sink as on `s`, and the unread bytes are those of the run on `s` followed by all
of `t`. When the run on `s` returns `nil` it has stopped at the terminator: the unread bytes
are `rest0`, so on `s ++ t` they are `rest0 ++ t`. -/
theorem trailing_bytes_ignored (env : Env) (fileSalt : Bytes) (cs : List Bytes)
    (rest0 t : Bytes) (w : Writer) (password masterSalt : Bytes) (res : DecResult)
    (hsalt : fileSalt.length = SaltSize) (hcs : ∀ c ∈ cs, ChunkOK c)
    (h : DecryptStream env (fileSalt ++ (frames cs ++ (terminator ++ rest0))) w
      password masterSalt = some res) :
    DecryptStream env ((fileSalt ++ (frames cs ++ (terminator ++ rest0))) ++ t) w
        password masterSalt
      = some { err := res.err, w := res.w, rest := res.rest ++ t, opened := res.opened } ∧
    (res.err = none → res.rest = rest0) := by
  have hs : (fileSalt ++ (frames cs ++ (terminator ++ rest0))) ++ t
      = fileSalt ++ (frames cs ++ (terminator ++ (rest0 ++ t))) := by
    simp only [List.append_assoc]
  rw [hs]
  unfold DecryptStream at h ⊢
  have hr : ∀ X : Bytes, ReadFull (fileSalt ++ X) SaltSize = (.ok fileSalt, X) := by
    intro X
    rw [← hsalt]; exact ReadFull_append _ _
  simp only [hr] at h ⊢
  cases hk : setupGCM env (env.DeriveKey password masterSalt) fileSalt with
  | error e =>
    rw [hk] at h
    simp only [Option.some.injEq] at h
    subst h
    exact ⟨by simp [List.append_assoc], fun h1 => by simp at h1⟩
  | ok gcm =>
    rw [hk] at h
    simp only [] at h ⊢
    obtain ⟨h1, h2⟩ := decLoop_trailing env gcm rest0 t cs _ _ res hcs h
    refine ⟨?_, h2⟩
    exact decLoop_fuel_mono env gcm _ _ _ _ _ h1 (by simp only [List.length_append]; omega)

theorem trailing_bytes_ignored_witness :
    DecryptStream toyEnv
        ((List.replicate 16 7 ++
          (frames [[1, 2, 3, 1, 1, 1, 1, 1, 1, 1, 1, 1, 1, 1, 1, 1, 1, 1, 1]] ++
            (terminator ++ []))) ++ [99, 98])
        emptySink [9] [8]
      = some { err := none, w := { data := [1, 2, 3], faults := [] }, rest := [] ++ [99, 98],
               opened := [⟨[0, 0, 0, 0, 0, 0, 0, 0, 0, 0, 0, 0],
                 [1, 2, 3, 1, 1, 1, 1, 1, 1, 1, 1, 1, 1, 1, 1, 1, 1, 1, 1]⟩] } :=
  (trailing_bytes_ignored toyEnv (List.replicate 16 7)
    [[1, 2, 3, 1, 1, 1, 1, 1, 1, 1, 1, 1, 1, 1, 1, 1, 1, 1, 1]] [] [99, 98] emptySink [9] [8]
    { err := none, w := { data := [1, 2, 3], faults := [] }, rest := [],
      opened := [⟨[0, 0, 0, 0, 0, 0, 0, 0, 0, 0, 0, 0],
        [1, 2, 3, 1, 1, 1, 1, 1, 1, 1, 1, 1, 1, 1, 1, 1, 1, 1, 1]⟩] }
    rfl (by simp [ChunkOK, MaxChunkSize, ChunkSize]) (by decide)).1

/-- C15 (`CountingWriter`), amended. For every sequence of `Write` calls on a
`CountingWriter` whose `Count` is a `uint64`: each call returns exactly the `(n, err)` of the
wrapped writer and leaves the wrapped writer as those calls leave it; afterwards `Count` is
the initial value plus the sum of the reported `n` values, reduced modulo `2^64` (so equal to
that sum whenever it is below `2^64`), whatever the lengths of the buffers offered; and when
`Callback` is set it has been called once per `Write`, in order, with that `n`, and not at
all when it is nil. -/
theorem counting_writer_counts {σ : Type} (under : σ → Bytes → (Int × Option Error) × σ)
    (ps : List Bytes) (w : CountingWriter σ) (hC : w.Count < 2 ^ 64) :
    (CountingWriter.writeAll under w ps).1 = (underAll under w.Writer ps).1 ∧
    (CountingWriter.writeAll under w ps).2.Writer = (underAll under w.Writer ps).2 ∧
    (((CountingWriter.writeAll under w ps).2.Count : Nat) : Int)
      = ((w.Count : Int) + (((CountingWriter.writeAll under w ps).1).map Prod.fst).sum) % 2 ^ 64 ∧
    (0 ≤ (w.Count : Int) + (((CountingWriter.writeAll under w ps).1).map Prod.fst).sum →
      (w.Count : Int) + (((CountingWriter.writeAll under w ps).1).map Prod.fst).sum < 2 ^ 64 →
      (((CountingWriter.writeAll under w ps).2.Count : Nat) : Int)
        = (w.Count : Int) + (((CountingWriter.writeAll under w ps).1).map Prod.fst).sum) ∧
    (CountingWriter.writeAll under w ps).2.called
      = (if w.Callback then w.called ++ ((CountingWriter.writeAll under w ps).1).map Prod.fst
         else w.called) := by
  obtain ⟨h1, h2, h3, _, h5⟩ := CountingWriter.writeAll_spec under ps w hC
  rw [h1]
  refine ⟨rfl, h2, h3, ?_, h5⟩
  intro h0 hlt
  rw [h3]
  exact Int.emod_eq_of_lt h0 hlt

theorem counting_writer_counts_witness :
    (CountingWriter.writeAll takeHalf
        { Writer := (), Count := 10, Callback := true, called := [] }
        [[1, 2, 3, 4], [5, 6]]).1
      = [(2, some (Error.other 1)), (1, some (Error.other 1))] ∧
    (((CountingWriter.writeAll takeHalf
        { Writer := (), Count := 10, Callback := true, called := [] }
        [[1, 2, 3, 4], [5, 6]]).2.Count : Nat) : Int)
      = ((10 : Nat) : Int) + (((CountingWriter.writeAll takeHalf
          { Writer := (), Count := 10, Callback := true, called := [] }
          [[1, 2, 3, 4], [5, 6]]).1).map Prod.fst).sum ∧
    (CountingWriter.writeAll takeHalf
        { Writer := (), Count := 10, Callback := true, called := [] }
        [[1, 2, 3, 4], [5, 6]]).2.Count = 13 := by
  have h := counting_writer_counts takeHalf [[1, 2, 3, 4], [5, 6]]
    { Writer := (), Count := 10, Callback := true, called := [] } (by norm_num)
  exact ⟨by decide, h.2.2.2.1 (by decide) (by decide), by decide⟩

/-- C15, as stated, fails: `Count` is a `uint64`, so from the initial value `2^64 - 1` a
`Write` for which the wrapped writer reports `n = 1` leaves `Count = 0`, not the initial
value plus one. -/
theorem count_wraps :
    (CountingWriter.writeAll takeAll
        { Writer := (), Count := 2 ^ 64 - 1, Callback := false, called := [] } [[0]]).1
      = [(1, none)] ∧
    (CountingWriter.writeAll takeAll
        { Writer := (), Count := 2 ^ 64 - 1, Callback := false, called := [] } [[0]]).2.Count
      = 0 ∧
    (0 : Nat) ≠ (2 ^ 64 - 1) + 1 := by
  refine ⟨by decide, by decide, by norm_num⟩

/-- C16 (the encoder's chunks fit the decoder's framing). With reads of at most `ChunkSize`
bytes and a `Seal` that adds the 16-byte GCM tag: (a) in every run of `EncryptStream`, whatever
its outcome, every window passed to `Seal` has between 1 and 65536 bytes, and the length the
encoder declares for its sealed bytes is the window length plus 16, hence between 17 and
65552, never 0 and never above 65792; (b) a run that returns `nil` has written the salt, then
data chunks that are all well-formed for the decoder, each declared with its true length,
one per window, then the terminator. -/
theorem encoder_chunk_lengths (env : Env) (reads : List ReadResult) (w : Writer)
    (password masterSalt : Bytes) (salt : Except Error Bytes)
    (hlen : SealLength env) (hfit : ReadsFit reads) :
    (∀ (k : Nat) (c : Call) (g : Bytes),
      (EncryptStream env reads w password masterSalt salt).sealed[k]? = some c →
      1 ≤ c.input.length ∧ c.input.length ≤ 65536 ∧
        uint32 (env.Seal g c.nonce c.input).length = c.input.length + 16 ∧
        17 ≤ uint32 (env.Seal g c.nonce c.input).length ∧
        uint32 (env.Seal g c.nonce c.input).length ≤ 65552 ∧
        uint32 (env.Seal g c.nonce c.input).length ≠ 0 ∧
        uint32 (env.Seal g c.nonce c.input).length ≤ 65536 + 256) ∧
    (∀ fileSalt gcm : Bytes, salt = .ok fileSalt →
      setupGCM env (env.DeriveKey password masterSalt) fileSalt = .ok gcm →
      (EncryptStream env reads w password masterSalt salt).err = none →
      (EncryptStream env reads w password masterSalt salt).w.data
          = w.data ++ fileSalt ++ frames (sealFrom env gcm 0 (windows reads)) ++ terminator ∧
        (sealFrom env gcm 0 (windows reads)).length = (windows reads).length ∧
        ∀ c ∈ sealFrom env gcm 0 (windows reads),
          ChunkOK c ∧ 17 ≤ c.length ∧ c.length ≤ 65552 ∧
            Uint32 (PutUint32 c.length) = c.length) := by
  constructor
  · intro k c g hc
    obtain ⟨ws, hpre, hws⟩ := EncryptStream_sealed_prefix env reads w password masterSalt salt
    rw [hws] at hc
    have hin := (callsFrom_getElem? 0 ws k c hc).2
    have hmem : c.input ∈ windows reads := hpre.subset (List.getElem?_mem hin)
    obtain ⟨hpos, r, hr, heq⟩ := mem_windows hmem
    have hle := hfit r hr
    rw [← heq] at hle
    unfold ChunkSize at hle
    have hs := hlen g c.nonce c.input
    unfold uint32
    rw [hs]
    omega
  · intro fileSalt gcm hsalt hkey hok
    subst hsalt
    refine ⟨(EncryptStream_ok hkey hok).1, sealFrom_length env gcm 0 _, ?_⟩
    intro c hc
    have h := sealed_windows_length hlen hfit hc
    unfold ChunkSize at h
    refine ⟨⟨by omega, by unfold MaxChunkSize ChunkSize; omega⟩, by omega, by omega, ?_⟩
    exact Uint32_PutUint32 (by omega)

theorem encoder_chunk_lengths_witness :
    (EncryptStream toyEnv [⟨[1, 2, 3], none⟩, ⟨[4], some Error.EOF⟩] emptySink [9] [8]
        (.ok (List.replicate 16 7))).sealed[1]?
      = some ⟨[0, 0, 0, 0, 0, 0, 0, 0, 0, 0, 0, 1], [4]⟩ ∧
    uint32 (toyEnv.Seal [9, 8] [0, 0, 0, 0, 0, 0, 0, 0, 0, 0, 0, 1] [4]).length
      = ([4] : Bytes).length + 16 ∧
    ((sealFrom toyEnv [9, 8, 7, 7, 7, 7, 7, 7, 7, 7, 7, 7, 7, 7, 7, 7, 7, 7] 0
        (windows [⟨[1, 2, 3], none⟩, ⟨[4], some Error.EOF⟩])).length
      = (windows [⟨[1, 2, 3], none⟩, ⟨[4], some Error.EOF⟩]).length) := by
  have h := encoder_chunk_lengths toyEnv [⟨[1, 2, 3], none⟩, ⟨[4], some Error.EOF⟩] emptySink
    [9] [8] (.ok (List.replicate 16 7)) toyEnv_SealLength (by simp [ReadsFit, ChunkSize])
  have h1 : (EncryptStream toyEnv [⟨[1, 2, 3], none⟩, ⟨[4], some Error.EOF⟩] emptySink [9] [8]
      (.ok (List.replicate 16 7))).sealed[1]?
      = some ⟨[0, 0, 0, 0, 0, 0, 0, 0, 0, 0, 0, 1], [4]⟩ := by decide
  exact ⟨h1, (h.1 1 ⟨[0, 0, 0, 0, 0, 0, 0, 0, 0, 0, 0, 1], [4]⟩ [9, 8] h1).2.2.1,
    (h.2 (List.replicate 16 7) [9, 8, 7, 7, 7, 7, 7, 7, 7, 7, 7, 7, 7, 7, 7, 7, 7, 7] rfl rfl
      (by decide)).2.1⟩

/-- C17 (a truncated stream decrypts to a prefix). Let `EncryptStream` succeed on a source
that hands over the plaintext in reads of at most `ChunkSize` bytes, with a 16-byte file salt,
and let `c1` be any prefix of the bytes it wrote. With the same password and master salt and
a sink that takes every write, `DecryptStream` on `c1` returns, with or without an error, and
what it has then appended to the sink is the concatenation of the first `k` windows of the
plaintext, whole and in order, for some `k`; this is a prefix of the plaintext. Used of the
cipher: `Open` undoes `Seal`, and `Seal` adds the 16-byte GCM tag. -/
theorem truncated_stream_prefix (env : Env) (reads : List ReadResult) (w sink : Writer)
    (password masterSalt fileSalt c1 : Bytes)
    (hopen : OpenSeal env) (hlen : SealLength env) (hfit : ReadsFit reads)
    (hsalt : fileSalt.length = SaltSize) (hsink : sink.faults = [])
    (hok : (EncryptStream env reads w password masterSalt (.ok fileSalt)).err = none)
    (hpre : c1 <+: (EncryptStream env reads w password masterSalt (.ok fileSalt)).w.data.drop
      w.data.length) :
    ∃ res k,
      DecryptStream env c1 sink password masterSalt = some res ∧
      k ≤ (windows reads).length ∧
      res.w.data = sink.data ++ ((windows reads).take k).flatten ∧
      ((windows reads).take k).flatten <+: delivered reads := by
  obtain ⟨gcm, hkey⟩ := EncryptStream_ok_key hok
  have henc := (EncryptStream_ok hkey hok).1
  have hwritten : (EncryptStream env reads w password masterSalt (.ok fileSalt)).w.data.drop
      w.data.length = fileSalt ++ (frames (sealFrom env gcm 0 (windows reads)) ++ terminator) := by
    rw [henc]
    simp [List.append_assoc]
  rw [hwritten] at hpre
  have hcs : ∀ c ∈ sealFrom env gcm 0 (windows reads), ChunkOK c := by
    intro c hc
    have := sealed_windows_length hlen hfit hc
    unfold ChunkOK MaxChunkSize
    omega
  obtain ⟨res, hres⟩ := DecryptStream_returns env c1 sink password masterSalt
  have hc1 := List.prefix_iff_eq_take.mp hpre
  have hflat : ∀ k, ((windows reads).take k).flatten <+: delivered reads := by
    intro k
    rw [← windows_flatten]
    exact take_flatten_prefix _ k
  by_cases hshort : c1.length < SaltSize
  · obtain ⟨e, _, hrd⟩ := ReadFull_short hshort
    have hres1 := hres
    unfold DecryptStream at hres1
    simp only [hrd, Option.some.injEq] at hres1
    refine ⟨res, 0, hres, Nat.zero_le _, ?_, hflat 0⟩
    rw [← hres1]
    simp
  · obtain ⟨X, hX⟩ : ∃ X, X = (frames (sealFrom env gcm 0 (windows reads)) ++ terminator).take
        (c1.length - SaltSize) := ⟨_, rfl⟩
    have hsplit : c1 = fileSalt ++ X := by
      rw [hX]
      conv_lhs => rw [hc1]
      rw [List.take_append_eq_append_take, hsalt, List.take_of_length_le (by omega)]
    have hr : ReadFull c1 SaltSize = (.ok fileSalt, X) := by
      rw [hsplit, ← hsalt]
      exact ReadFull_append _ _
    have hres1 := hres
    unfold DecryptStream at hres1
    simp only [hr, hkey] at hres1
    rw [hX] at hres1
    obtain ⟨k, hk, hdata⟩ := decLoop_prefix env gcm _ _ 0 _ _ res (windows reads)
      NonceOK_init rfl hsink hcs (openFrom_sealFrom hopen gcm 0 (windows reads)) hres1
    exact ⟨res, k, hres, hk, hdata, hflat k⟩

theorem truncated_stream_prefix_witness :
    ∃ res k,
      DecryptStream toyEnv
          (List.replicate 16 7 ++
            [0, 0, 0, 19, 1, 2, 3, 1, 1, 1, 1, 1, 1, 1, 1, 1, 1, 1, 1, 1, 1, 1, 1, 0, 0, 0, 17, 4, 2])
          emptySink [9] [8] = some res ∧
      k ≤ (windows [⟨[1, 2, 3], none⟩, ⟨[4], some Error.EOF⟩]).length ∧
      res.w.data
        = emptySink.data ++ ((windows [⟨[1, 2, 3], none⟩, ⟨[4], some Error.EOF⟩]).take k).flatten ∧
      ((windows [⟨[1, 2, 3], none⟩, ⟨[4], some Error.EOF⟩]).take k).flatten
        <+: delivered [⟨[1, 2, 3], none⟩, ⟨[4], some Error.EOF⟩] :=
  truncated_stream_prefix toyEnv [⟨[1, 2, 3], none⟩, ⟨[4], some Error.EOF⟩] emptySink emptySink
    [9] [8] (List.replicate 16 7)
    (List.replicate 16 7 ++
      [0, 0, 0, 19, 1, 2, 3, 1, 1, 1, 1, 1, 1, 1, 1, 1, 1, 1, 1, 1, 1, 1, 1, 0, 0, 0, 17, 4, 2])
    toyEnv_OpenSeal toyEnv_SealLength (by simp [ReadsFit, ChunkSize]) rfl rfl (by decide)
    (by decide)

/-- C18 (`ensurePipExtension`). `strings.ToLower` is a parameter, of which is used that it
lower-cases `".pip"` appended to a string separately and leaves it unchanged. For every path:
the lower-cased result ends with `".pip"`; the result equals the input exactly when the
lower-cased input already ends with `".pip"`, and otherwise it is the input with `".pip"`
appended; and applying the function twice equals applying it once. -/
theorem ensure_pip_extension (ToLower : Bytes → Bytes)
    (hlow : ∀ s, ToLower (s ++ pipExt) = ToLower s ++ pipExt) (path : Bytes) :
    HasSuffix (ToLower (ensurePipExtension ToLower path)) pipExt = true ∧
    (ensurePipExtension ToLower path = path ↔ HasSuffix (ToLower path) pipExt = true) ∧
    (HasSuffix (ToLower path) pipExt = false →
      ensurePipExtension ToLower path = path ++ pipExt) ∧
    ensurePipExtension ToLower (ensurePipExtension ToLower path)
      = ensurePipExtension ToLower path := by
  cases h : HasSuffix (ToLower path) pipExt with
  | true =>
    have hf : ensurePipExtension ToLower path = path := by
      unfold ensurePipExtension
      rw [h]
      rfl
    rw [hf]
    exact ⟨h, ⟨fun _ => rfl, fun _ => rfl⟩, fun h1 => by simp at h1, hf⟩
  | false =>
    have hf : ensurePipExtension ToLower path = path ++ pipExt := by
      unfold ensurePipExtension
      rw [h]
      rfl
    have hs : HasSuffix (ToLower (path ++ pipExt)) pipExt = true := by
      rw [hlow]
      exact HasSuffix_append _ _
    have hne : path ++ pipExt ≠ path := by
      intro heq
      have := congrArg List.length heq
      simp [pipExt] at this
    rw [hf]
    refine ⟨hs, ⟨fun h1 => absurd h1 hne, fun h1 => by simp at h1⟩, fun _ => rfl, ?_⟩
    unfold ensurePipExtension
    rw [hs]
    rfl

theorem ensure_pip_extension_witness :
    HasSuffix (asciiLower (ensurePipExtension asciiLower [97, 46, 80, 105, 80])) pipExt = true ∧
    (ensurePipExtension asciiLower [97, 46, 80, 105, 80] = [97, 46, 80, 105, 80] ↔
      HasSuffix (asciiLower [97, 46, 80, 105, 80]) pipExt = true) ∧
    (HasSuffix (asciiLower [97, 46, 80, 105, 80]) pipExt = false →
      ensurePipExtension asciiLower [97, 46, 80, 105, 80] = [97, 46, 80, 105, 80] ++ pipExt) ∧
    ensurePipExtension asciiLower (ensurePipExtension asciiLower [97, 46, 80, 105, 80])
      = ensurePipExtension asciiLower [97, 46, 80, 105, 80] :=
  ensure_pip_extension asciiLower asciiLower_pipExt [97, 46, 80, 105, 80]

end Chin
